import Mathlib

/-!
Verification of the file-flow-converter web application's intake, validation,
preview and submission pipeline.

Text is modelled as `List Char` (one entry per character, mirroring the
JavaScript string operations used by the code: `split`, `trim`, `substring`,
`replace`, `endsWith`, `match` on extension patterns).  Files are modelled by
their metadata (`name`, declared MIME `type`, byte `size`) plus, where a read
is involved, the decoded text contents supplied by the environment.

The JSON value space is modelled by the mutual inductive `Json`; JSON numbers
are restricted to integers, because JavaScript numbers are IEEE-754 doubles
whose formatting is outside the scope of this embedding.  `parseJson` models
`JSON.parse` (it fails exactly where `JSON.parse` throws, on the fragment of
the grammar representable here) and `stringify2` models
`JSON.stringify(v, null, 2)`, the two-space pretty-printer used by the
preview's `reader.onload` handler.  Recursions are structural (fuelled where
needed) so that every definition evaluates inside the kernel.
-/

/-! ## Characters and basic text utilities -/

/-- The left-brace character, kept out of literals. -/
def lbrace : Char := Char.ofNat 123

/-- The right-brace character, kept out of literals. -/
def rbrace : Char := Char.ofNat 125

/-- JSON insignificant whitespace (also what the pretty-printer emits). -/
def isWsJ (c : Char) : Bool := c = ' ' || c = '\n' || c = '\r' || c = '\t'

/-- Whitespace removed by JavaScript `String.prototype.trim` (ASCII part). -/
def isTrimWs (c : Char) : Bool :=
  c = ' ' || c = '\t' || c = '\n' || c = '\r' || c = Char.ofNat 11 || c = Char.ofNat 12

/-- Drop leading JSON whitespace. -/
def skipWs : List Char → List Char
  | [] => []
  | c :: cs => if isWsJ c then skipWs cs else c :: cs

/-- `String.prototype.trim`: drop leading and trailing whitespace. -/
def trimL (s : List Char) : List Char :=
  ((s.dropWhile isTrimWs).reverse.dropWhile isTrimWs).reverse

/-- ASCII lower-casing, as performed by a case-insensitive (`/i`) regex match
    on the extension patterns the validators use. -/
def toLowerAscii (c : Char) : Char :=
  if 'A' ≤ c ∧ c ≤ 'Z' then Char.ofNat (c.toNat + 32) else c

/-- Lower-case a whole name for case-insensitive extension matching. -/
def lowerL (s : List Char) : List Char := s.map toLowerAscii

/-- JavaScript `String.prototype.split` with a single-character separator. -/
def splitCh (sep : Char) : List Char → List (List Char)
  | [] => [[]]
  | c :: cs =>
    match splitCh sep cs with
    | r :: rs => if c = sep then [] :: r :: rs else (c :: r) :: rs
    | [] => [[]]

/-- Fuelled worker for `splitOnSeq`; the fuel bounds the input length, so the
    skip over a matched separator keeps the recursion structural. -/
def splitOnSeqGo (sep : List Char) : Nat → List Char → List (List Char)
  | _, [] => [[]]
  | 0, s => [s]
  | f + 1, x :: xs =>
    if sep ≠ [] ∧ sep.isPrefixOf (x :: xs) then
      [] :: splitOnSeqGo sep f ((x :: xs).drop sep.length)
    else
      match splitOnSeqGo sep f xs with
      | r :: rs => (x :: r) :: rs
      | [] => [[]]

/-- JavaScript `String.prototype.split` with a multi-character separator:
    scan left to right, cutting at each non-overlapping occurrence. -/
def splitOnSeq (sep : List Char) (s : List Char) : List (List Char) :=
  splitOnSeqGo sep s.length s

/-! ## File metadata and the validators -/

/-- A candidate file as the browser hands it to the page: name, declared MIME
    type, byte size.  (The contents only matter once a read happens and are
    supplied separately.) -/
structure FileMeta where
  name : List Char
  type : String
  size : Nat
deriving DecidableEq

/-- Outcome of client-side validation. -/
inductive ValidationOutcome where
  | accepted
  | tooLarge
  | badType
deriving DecidableEq

/-- The generic flow's MIME allow-list (`FileUpload.tsx`, `allowedTypes`). -/
def allowedTypes : List String :=
  ["text/csv",
   "application/vnd.ms-excel",
   "application/vnd.openxmlformats-officedocument.spreadsheetml.sheet",
   "text/plain",
   "application/json"]

def csvExt : List Char := ".csv".toList
def xlsxExt : List Char := ".xlsx".toList
def xlsExt : List Char := ".xls".toList
def txtExt : List Char := ".txt".toList
def jsonExt : List Char := ".json".toList

/-- `file.name.match(/\.(csv|xlsx|xls|txt|json)$/i)`: the lower-cased name ends
    in one of the five allowed extensions. -/
def matchesExtGeneric (name : List Char) : Bool :=
  [csvExt, xlsxExt, xlsExt, txtExt, jsonExt].any
    (fun ext => ext.isSuffixOf (lowerL name))

/-- The generic flow's type criterion: MIME in the allow-list OR an allowed
    extension, case-insensitively. -/
def genericTypeOk (file : FileMeta) : Bool :=
  allowedTypes.contains file.type || matchesExtGeneric file.name

/-- `validateAndUploadFile` from `FileUpload.tsx`: reject above 10 MiB first,
    then reject on the type criterion, otherwise hand the file to the page. -/
def validateAndUploadFile (file : FileMeta) : ValidationOutcome :=
  if file.size > 10 * 1024 * 1024 then .tooLarge
  else if genericTypeOk file then .accepted
  else .badType

/-- The Excel-pair flow's MIME allow-list (`Index.tsx`, `validTypes`). -/
def validTypes : List String :=
  ["application/vnd.ms-excel",
   "application/vnd.openxmlformats-officedocument.spreadsheetml.sheet"]

/-- `file.name.match(/\.(xlsx|xls)$/i)`. -/
def matchesExtExcel (name : List Char) : Bool :=
  [xlsxExt, xlsExt].any (fun ext => ext.isSuffixOf (lowerL name))

/-- The Excel-pair flow's type criterion. -/
def excelTypeOk (file : FileMeta) : Bool :=
  validTypes.contains file.type || matchesExtExcel file.name

/-- The validation performed by `handleFileUpload` in `Index.tsx`: a type
    check only — the Excel-pair flow has no size rule. -/
def handleFileUploadValidate (file : FileMeta) : ValidationOutcome :=
  if excelTypeOk file then .accepted else .badType

/-! ## The Excel-pair page's state and submission -/

/-- The two upload slots of `Index.tsx`. -/
inductive UploadType where
  | expenseType
  | transactions
deriving DecidableEq

/-- The reactive state held by the `Index` page. -/
structure IndexState where
  expenseTypeFile : Option FileMeta
  transactionsFile : Option FileMeta
  isProcessing : Bool
  zipFileUrl : Option String
  zipFileName : List Char
deriving DecidableEq

/-- `handleFileUpload`, state part: on acceptance the named slot is replaced;
    on rejection the state is untouched. -/
def handleFileUpload (s : IndexState) (file : FileMeta) (t : UploadType) : IndexState :=
  if excelTypeOk file then
    match t with
    | .expenseType => { s with expenseTypeFile := some file }
    | .transactions => { s with transactionsFile := some file }
  else s

/-- `removeFile` from `Index.tsx`: clear exactly the named slot. -/
def removeFile (s : IndexState) (t : UploadType) : IndexState :=
  match t with
  | .expenseType => { s with expenseTypeFile := none }
  | .transactions => { s with transactionsFile := none }

/-- The separator the filename extraction splits on. -/
def fnSep : List Char := "filename=".toList

/-- The documented fallback download name. -/
def defaultZipName : List Char := "processed-files.zip".toList

/-- `response.headers.get('Content-Disposition')?.split('filename=')[1]?.replace(/"/g, '') || 'processed-files.zip'`:
    take the text between the first and second occurrence of `filename=`,
    remove every double quote, and fall back to the default when the header is
    absent, the pattern is missing, or the remainder is empty. -/
def extractFilename (header : Option (List Char)) : List Char :=
  match header with
  | none => defaultZipName
  | some h =>
    match (splitOnSeq fnSep h).get? 1 with
    | none => defaultZipName
    | some seg =>
      let nm := seg.filter (fun c => c ≠ '\"')
      if nm.isEmpty then defaultZipName else nm

/-- The HTTP response of the remote endpoint, as far as the page inspects it. -/
structure HttpResponse where
  ok : Bool
  contentDisposition : Option (List Char)
deriving DecidableEq

/-- Submission error kinds surfaced by `handleSubmit`. -/
inductive SubmitError where
  | missingRequiredFiles
  | submissionFailure
deriving DecidableEq

/-- What one invocation of `handleSubmit` did: the state afterwards, the
    multipart request it issued (fields `expenseFile` and `file`), if any,
    and the error it surfaced, if any. -/
structure SubmitResult where
  state : IndexState
  request : Option (FileMeta × FileMeta)
  error : Option SubmitError
deriving DecidableEq

/-- `handleSubmit` from `Index.tsx`.  With a slot missing it reports missing
    files and returns before any network activity.  Otherwise it POSTs both
    files; a non-ok response is a generic failure; on success the blob URL
    (supplied by the environment as `url`) and the extracted filename are
    stored.  `isProcessing` is reset by the `finally` block on both paths. -/
def handleSubmit (s : IndexState) (resp : HttpResponse) (url : String) : SubmitResult :=
  match s.expenseTypeFile, s.transactionsFile with
  | some ef, some tf =>
    if resp.ok then
      { state := { s with
          zipFileUrl := some url,
          zipFileName := extractFilename resp.contentDisposition,
          isProcessing := false },
        request := some (ef, tf),
        error := none }
    else
      { state := { s with isProcessing := false },
        request := some (ef, tf),
        error := some .submissionFailure }
  | _, _ =>
    { state := s, request := none, error := some .missingRequiredFiles }

/-! ## The JSON value space, printer and parser

The preview's `reader.onload` handler runs `JSON.parse` on the decoded text of
a JSON-marked file and re-serialises the value with
`JSON.stringify(jsonData, null, 2)`.  Numbers are modelled as integers (see
the header note); everything else follows the JSON grammar that `JSON.parse`
accepts and the exact text `JSON.stringify` emits at gap 2.
-/

mutual
/-- A JSON value (numbers restricted to integers). -/
inductive Json where
  | null
  | bool (b : Bool)
  | num (n : Int)
  | str (s : List Char)
  | arr (elems : JsonList)
  | obj (members : JsonMembers)

/-- The element list of a JSON array. -/
inductive JsonList where
  | nil
  | cons (hd : Json) (tl : JsonList)

/-- The member list of a JSON object (keys in textual order). -/
inductive JsonMembers where
  | nil
  | cons (key : List Char) (val : Json) (tl : JsonMembers)
end

/-- Is this character an ASCII decimal digit? -/
def isDigitJ (c : Char) : Bool := '0' ≤ c && c ≤ '9'

/-- Fuelled worker for `natDigits`; the fuel bounds the number, keeping the
    division-by-ten recursion structural. -/
def natDigitsGo : Nat → Nat → List Char → List Char
  | 0, n, acc => Char.ofNat ('0'.toNat + n % 10) :: acc
  | f + 1, n, acc =>
    if n < 10 then Char.ofNat ('0'.toNat + n % 10) :: acc
    else natDigitsGo f (n / 10) (Char.ofNat ('0'.toNat + n % 10) :: acc)

/-- Decimal digits of `n`, most significant first, prepended to `acc`. -/
def natDigits (n : Nat) (acc : List Char) : List Char := natDigitsGo n n acc

/-- The decimal text of an integer, as `String(n)` prints an integral double:
    an optional minus sign followed by the digits. -/
def intChars (i : Int) : List Char :=
  (if i < 0 then ['-'] else []) ++ natDigits i.natAbs []

/-- One hexadecimal digit (lower case), for `\u00XX` escapes. -/
def hexDigit (n : Nat) : Char :=
  if n < 10 then Char.ofNat ('0'.toNat + n) else Char.ofNat ('a'.toNat + (n - 10))

/-- How `JSON.stringify` escapes one string character: the short escapes for
    quote, backslash, backspace, form feed, newline, carriage return and tab;
    `\u00XX` for the remaining control characters; everything else verbatim. -/
def escapeChar (c : Char) : List Char :=
  if c = '\"' then ['\\', '\"']
  else if c = '\\' then ['\\', '\\']
  else if c = Char.ofNat 8 then ['\\', 'b']
  else if c = Char.ofNat 12 then ['\\', 'f']
  else if c = '\n' then ['\\', 'n']
  else if c = '\r' then ['\\', 'r']
  else if c = '\t' then ['\\', 't']
  else if c.toNat < 32 then
    ['\\', 'u', '0', '0', hexDigit (c.toNat / 16), hexDigit (c.toNat % 16)]
  else [c]

/-- A JSON string literal: quote, escaped characters, quote. -/
def strChars (s : List Char) : List Char :=
  '\"' :: (s.flatMap escapeChar ++ ['\"'])

/-- The indentation `JSON.stringify(·, null, 2)` emits at nesting depth `d`. -/
def indentJ (d : Nat) : List Char := List.replicate (2 * d) ' '

/-- The separator between two array elements, looking one element ahead. -/
def jsepL : JsonList → List Char
  | .nil => []
  | .cons _ _ => [',', '\n']

/-- The separator between two object members, looking one member ahead. -/
def jsepM : JsonMembers → List Char
  | .nil => []
  | .cons _ _ _ => [',', '\n']

mutual
/-- `JSON.stringify(v, null, 2)` at nesting depth `d`. -/
def ppVal (d : Nat) (v : Json) : List Char :=
  match v with
  | .null => "null".toList
  | .bool true => "true".toList
  | .bool false => "false".toList
  | .num i => intChars i
  | .str s => strChars s
  | .arr .nil => ['[', ']']
  | .arr (.cons x xs) =>
    '[' :: '\n' :: (ppItems d (.cons x xs) ++ '\n' :: (indentJ d ++ [']']))
  | .obj .nil => [lbrace, rbrace]
  | .obj (.cons k w ms) =>
    lbrace :: '\n' :: (ppMembers d (.cons k w ms) ++ '\n' :: (indentJ d ++ [rbrace]))

/-- Array elements, one per line, indented one level deeper. -/
def ppItems (d : Nat) (xs : JsonList) : List Char :=
  match xs with
  | .nil => []
  | .cons x tl => indentJ (d + 1) ++ ppVal (d + 1) x ++ (jsepL tl ++ ppItems d tl)

/-- Object members, `"key": value`, one per line, indented one level deeper. -/
def ppMembers (d : Nat) (ms : JsonMembers) : List Char :=
  match ms with
  | .nil => []
  | .cons k w tl =>
    indentJ (d + 1) ++ strChars k ++ ':' :: ' ' :: (ppVal (d + 1) w ++ (jsepM tl ++ ppMembers d tl))
end

/-- `JSON.stringify(v, null, 2)` of a whole document. -/
def stringify2 (v : Json) : List Char := ppVal 0 v

/-- The numeric value of a hexadecimal digit character, if it is one. -/
def hexVal (c : Char) : Option Nat :=
  let n := c.toNat
  if 48 ≤ n ∧ n ≤ 57 then some (n - 48)
  else if 97 ≤ n ∧ n ≤ 102 then some (n - 87)
  else if 65 ≤ n ∧ n ≤ 70 then some (n - 55)
  else none

/-- Four hex digits to their value. -/
def hex4 (a b c d : Char) : Option Nat :=
  match hexVal a, hexVal b, hexVal c, hexVal d with
  | some va, some vb, some vc, some vd =>
      some (4096 * va + 256 * vb + 16 * vc + vd)
  | _, _, _, _ => none

/-- The character a short escape denotes, if the escape is legal. -/
def unescapeChar (e : Char) : Option Char :=
  if e = '\"' then some '\"'
  else if e = '\\' then some '\\'
  else if e = '/' then some '/'
  else if e = 'b' then some (Char.ofNat 8)
  else if e = 'f' then some (Char.ofNat 12)
  else if e = 'n' then some '\n'
  else if e = 'r' then some '\r'
  else if e = 't' then some '\t'
  else none

/-- Parse the body of a string literal (after the opening quote) up to the
    closing quote, resolving escapes; raw control characters are rejected,
    as `JSON.parse` rejects them. -/
def parseStringBody (acc : List Char) : List Char → Option (List Char × List Char)
  | [] => none
  | c :: r =>
    if c = '\"' then some (acc.reverse, r)
    else if c = '\\' then
      match r with
      | [] => none
      | e :: r2 =>
        if e = 'u' then
          match r2 with
          | a :: b :: c2 :: d :: r3 =>
            match hex4 a b c2 d with
            | some n => parseStringBody (Char.ofNat n :: acc) r3
            | none => none
          | _ => none
        else
          match unescapeChar e with
          | some ch => parseStringBody (ch :: acc) r2
          | none => none
    else if c.toNat < 32 then none
    else parseStringBody (c :: acc) r

/-- The longest leading run of decimal digits, and the rest. -/
def takeDigits : List Char → List Char × List Char
  | [] => ([], [])
  | c :: cs =>
    if isDigitJ c then
      let (ds, r) := takeDigits cs
      (c :: ds, r)
    else ([], c :: cs)

/-- The number denoted by a digit run. -/
def digitsToNat (ds : List Char) : Nat :=
  ds.foldl (fun acc c => acc * 10 + (c.toNat - '0'.toNat)) 0

/-- Parse an unsigned JSON number (grammar: `0` alone, or a digit run not
    starting with `0`).  A following fraction or exponent is outside the
    integer-restricted model and makes the parse fail. -/
def parseNatNum (cs : List Char) : Option (Nat × List Char) :=
  match cs with
  | [] => none
  | c :: r =>
    if isDigitJ c then
      let (ds, rest) : List Char × List Char :=
        if c = '0' then ([c], r)
        else
          let (ds', r') := takeDigits r
          (c :: ds', r')
      match rest with
      | x :: _ =>
        if x = '.' ∨ x = 'e' ∨ x = 'E' then none
        else some (digitsToNat ds, rest)
      | [] => some (digitsToNat ds, [])
    else none

/-- Parse a JSON number: an optional minus sign, then an unsigned number. -/
def parseNum (cs : List Char) : Option (Int × List Char) :=
  match cs with
  | [] => none
  | c0 :: r0 =>
    if c0 = '-' then
      match parseNatNum r0 with
      | some (m, rest) => some (-(m : Int), rest)
      | none => none
    else
      match parseNatNum (c0 :: r0) with
      | some (m, rest) => some ((m : Int), rest)
      | none => none

mutual
/-- Parse one JSON value, fuel-indexed for totality. -/
def parseVal : Nat → List Char → Option (Json × List Char)
  | 0, _ => none
  | f + 1, input =>
    match skipWs input with
    | [] => none
    | c :: r =>
      if c = 'n' then
        match r with
        | 'u' :: 'l' :: 'l' :: r' => some (.null, r')
        | _ => none
      else if c = 't' then
        match r with
        | 'r' :: 'u' :: 'e' :: r' => some (.bool true, r')
        | _ => none
      else if c = 'f' then
        match r with
        | 'a' :: 'l' :: 's' :: 'e' :: r' => some (.bool false, r')
        | _ => none
      else if c = '\"' then
        match parseStringBody [] r with
        | some (s, r') => some (.str s, r')
        | none => none
      else if c = '[' then
        match skipWs r with
        | [] => none
        | c' :: r' =>
          if c' = ']' then some (.arr .nil, r')
          else
            match parseItems f (c' :: r') with
            | some (vs, r'') => some (.arr vs, r'')
            | none => none
      else if c = lbrace then
        match skipWs r with
        | [] => none
        | c' :: r' =>
          if c' = rbrace then some (.obj .nil, r')
          else
            match parseMembs f (c' :: r') with
            | some (ms, r'') => some (.obj ms, r'')
            | none => none
      else if c = '-' ∨ isDigitJ c then
        match parseNum (c :: r) with
        | some (n, r') => some (.num n, r')
        | none => none
      else none

/-- Parse one-or-more comma-separated array elements and the closing `]`. -/
def parseItems : Nat → List Char → Option (JsonList × List Char)
  | 0, _ => none
  | f + 1, input =>
    match parseVal f input with
    | none => none
    | some (v, r) =>
      match skipWs r with
      | [] => none
      | c :: r' =>
        if c = ',' then
          match parseItems f (skipWs r') with
          | some (vs, r'') => some (.cons v vs, r'')
          | none => none
        else if c = ']' then some (.cons v .nil, r')
        else none

/-- Parse one-or-more `"key": value` members and the closing brace. -/
def parseMembs : Nat → List Char → Option (JsonMembers × List Char)
  | 0, _ => none
  | f + 1, input =>
    match skipWs input with
    | [] => none
    | c :: r =>
      if c = '\"' then
        match parseStringBody [] r with
        | none => none
        | some (k, r1) =>
          match skipWs r1 with
          | [] => none
          | c2 :: r2 =>
            if c2 = ':' then
              match parseVal f (skipWs r2) with
              | none => none
              | some (v, r3) =>
                match skipWs r3 with
                | [] => none
                | c3 :: r4 =>
                  if c3 = ',' then
                    match parseMembs f (skipWs r4) with
                    | some (ms, r5) => some (.cons k v ms, r5)
                    | none => none
                  else if c3 = rbrace then some (.cons k v .nil, r4)
                  else none
            else none
      else none
end

/-- `JSON.parse` on a whole document: one value, then only whitespace. -/
def parseJson (cs : List Char) : Option Json :=
  match parseVal (cs.length + 1) cs with
  | some (v, r) => if (skipWs r).isEmpty then some v else none
  | none => none

/-! ## The preview component (`FilePreview`) -/

/-- What `reader.onload` leaves behind: content, or an error message. -/
inductive ReadOutcome where
  | content (text : List Char)
  | failure (msg : List Char)
deriving DecidableEq

/-- The message set by the `catch` in `reader.onload`. -/
def readFailMsg : List Char :=
  "Failed to read file content. The file might be corrupted or in an unsupported format.".toList

/-- `file.type === 'application/json' || file.name.endsWith('.json')` (the
    `endsWith` here is case-sensitive, unlike the validator's regexes). -/
def jsonMarked (file : FileMeta) : Bool :=
  file.type = "application/json" || jsonExt.isSuffixOf file.name

/-- The `reader.onload` handler: JSON-marked files are parsed and re-serialised
    with two-space indentation (a parse failure is caught and becomes the
    failure message); all other files keep the decoded text verbatim. -/
def readerOnload (file : FileMeta) (result : List Char) : ReadOutcome :=
  if jsonMarked file then
    match parseJson result with
    | some v => .content (stringify2 v)
    | none => .failure readFailMsg
  else .content result

/-- The truncation marker appended by the preformatted-text branch. -/
def truncMarker : List Char := "\n\n... (content truncated)".toList

/-- The preformatted-text branch of `renderContent`: cap display at the first
    5000 characters, appending the marker when the content is longer. -/
def renderTextL (content : List Char) : List Char :=
  if content.length > 5000 then content.take 5000 ++ truncMarker else content

/-- `file.type.includes('image')`. -/
def typeIncludesImage (t : String) : Bool := decide ("image".toList <:+: t.toList)

/-- `file.name.endsWith('.csv') || file.type === 'text/csv'`. -/
def csvDetect (file : FileMeta) : Bool :=
  csvExt.isSuffixOf file.name || file.type = "text/csv"

/-- What `renderContent` renders. -/
inductive RenderedView where
  | loadingView
  | errorView (msg : List Char)
  | imageView
  | tableView (header : List (List Char)) (body : List (List (List Char))) (footer : Option Nat)
  | textView (text : List Char)
deriving DecidableEq

/-- `renderContent` from `FilePreview`: loading and error first; then images;
    then the CSV table (first 10 lines, naive comma split, cells trimmed at
    render time, a footer with the total line count when more than 10); then
    preformatted text with the 5000-character cap. -/
def renderContent (file : FileMeta) (loading : Bool) (error : Option (List Char))
    (content : List Char) : RenderedView :=
  if loading then .loadingView
  else
    match error with
    | some e => .errorView e
    | none =>
      if typeIncludesImage file.type then .imageView
      else
        if csvDetect file then
          let allLines := splitCh '\n' content
          let rows := (allLines.take 10).map (splitCh ',')
          if rows.length > 0 then
            .tableView ((rows.headD []).map trimL)
              ((rows.drop 1).map (fun row => row.map trimL))
              (if allLines.length > 10 then some allLines.length else none)
          else .textView (renderTextL content)
        else .textView (renderTextL content)

/-! ### The preview's asynchronous read, as an event system

`FilePreview`'s `useEffect` runs whenever the previewed file changes: it sets
`loading`, clears `error`, and starts a fresh `FileReader` whose `onload`
closure captures that file.  The effect has no cleanup and the handler checks
no token, so a reader started for an earlier file still updates the state when
it completes.  Events: the effect running for a (new) file, and the completion
of the `i`-th reader started so far, whose decoded text is supplied by the
environment `env`. -/

/-- The component state `useState` holds. -/
structure PreviewState where
  content : List Char
  loading : Bool
  error : Option (List Char)
deriving DecidableEq

/-- State before the first effect run. -/
def initialPreview : PreviewState := { content := [], loading := true, error := none }

/-- The state updates of one `useEffect` run (before the read completes). -/
def runEffect (s : PreviewState) : PreviewState := { s with loading := true, error := none }

/-- The state updates the `onload` handler performs when the reader started
    for `file` delivers `result`. -/
def applyOnload (file : FileMeta) (result : List Char) (s : PreviewState) : PreviewState :=
  match readerOnload file result with
  | .content c => { s with content := c, loading := false }
  | .failure m => { s with error := some m, loading := false }

/-- Preview events: the previewed file changes (the effect runs and starts a
    reader), or the `i`-th started reader completes. -/
inductive PreviewEv where
  | setFile (f : FileMeta)
  | complete (i : Nat)

/-- One event-loop step: the component state plus the list of readers started
    so far (each remembering the file its closure captured). -/
def stepPreview (env : FileMeta → List Char) :
    PreviewState × List FileMeta → PreviewEv → PreviewState × List FileMeta
  | (s, pend), .setFile f => (runEffect s, pend ++ [f])
  | (s, pend), .complete i =>
    match pend.get? i with
    | some f => (applyOnload f (env f) s, pend)
    | none => (s, pend)

/-- Run a whole event trace. -/
def runPreview (env : FileMeta → List Char) (evs : List PreviewEv) :
    PreviewState × List FileMeta :=
  evs.foldl (stepPreview env) (initialPreview, [])

/-! ## Concrete instances used by counterexamples and witnesses -/

/-- A type-valid CSV file one byte over the 10 MiB limit. -/
def bigCsvFile : FileMeta := { name := "data.csv".toList, type := "text/csv", size := 10485761 }

/-- A small plain-text file. -/
def wTxtFile : FileMeta := { name := "notes.txt".toList, type := "text/plain", size := 100 }

/-- A type-valid Excel file of 11 MiB — over the generic limit, but the
    Excel-pair flow has none. -/
def wXlsxFile : FileMeta := { name := "report.xlsx".toList, type := "", size := 11534336 }

/-- An empty file marked as JSON by MIME type and extension. -/
def emptyJsonFile : FileMeta :=
  { name := "empty.json".toList, type := "application/json", size := 0 }

/-- An empty plain-text file. -/
def emptyTxtFile : FileMeta := { name := "empty.txt".toList, type := "text/plain", size := 0 }

/-- A CSV file for the preview witness. -/
def wCsvFile : FileMeta := { name := "table.csv".toList, type := "text/csv", size := 200 }

/-- Fifteen lines, the header holding three comma-separated fields. -/
def wCsvContent : List Char :=
  "a , b ,c\n1,2,3\n4,5,6\n7,8,9\n10,11,12\nr5\nr6\nr7\nr8\nr9\nr10\nr11\nr12\nr13\nr14".toList

/-- The first file a preview target receives. -/
def previewF1 : FileMeta := { name := "f1.txt".toList, type := "text/plain", size := 5 }

/-- The file that replaces it before the first read completes. -/
def previewF2 : FileMeta := { name := "f2.txt".toList, type := "text/plain", size := 4 }

/-- The files' decoded contents. -/
def previewEnv : FileMeta → List Char :=
  fun f => if f = previewF1 then "alpha".toList else "beta".toList

/-- F1 arrives, F2 replaces it, F2's read completes, then F1's stale read
    completes. -/
def staleTrace : List PreviewEv :=
  [.setFile previewF1, .setFile previewF2, .complete 1, .complete 0]

/-- Everything after the first occurrence of `sep`, if `sep` occurs: the
    claim's stated pattern («substring after `filename=`»), for comparison
    with what the code computes. -/
def specSubstringAfter (sep s : List Char) : Option (List Char) :=
  match splitOnSeq sep s with
  | [] => none
  | [_] => none
  | _ :: r1 :: rest => some (List.intercalate sep (r1 :: rest))

/-- Strip one pair of surrounding double quotes, if present: the claim's
    stated treatment of the quoted value. -/
def specStripSurroundingQuotes (s : List Char) : List Char :=
  if s.head? = some '\"' ∧ s.getLast? = some '\"' ∧ 2 ≤ s.length
  then (s.drop 1).dropLast else s

/-- The filename the claim describes: the substring after `filename=` with
    its surrounding quotes stripped (`none` when the pattern is absent). -/
def specFilename (header : Option (List Char)) : Option (List Char) :=
  header.bind (fun h => (specSubstringAfter fnSep h).map specStripSurroundingQuotes)

/-- A `Content-Disposition` value whose quoted filename contains a double
    quote of its own. -/
def cdHeader : List Char := "attachment; filename=\"my\"file.zip\"".toList

/-- The usual prefix before the filename parameter. -/
def c8Prefix : List Char := "attachment; ".toList

/-- A quoted filename value. -/
def c8Name : List Char := "\"result.zip\"".toList

/-- A header that is present but carries no `filename=` parameter. -/
def c8Bare : List Char := "attachment".toList

/-- The segment between two occurrences of the pattern. -/
def c8Mid : List Char := "\"a.zip\"; ".toList

/-- The text after the second occurrence of the pattern. -/
def c8Tail : List Char := "\"b.zip\"".toList

/-- A remainder that cannot extend a parsed JSON number: empty, or headed by
    a character that is neither a digit nor `.`, `e`, `E`. -/
def numDelim : List Char → Bool
  | [] => true
  | c :: _ => !(isDigitJ c || c = '.' || c = 'e' || c = 'E')

/-- The text that follows one rendered array element: either the separator
    and the remaining elements, or the line break, closing indentation and
    `]`; used to state the parser round-trip. -/
def afterItem (d : Nat) (xs : JsonList) (rest : List Char) : List Char :=
  match xs with
  | .nil => '\n' :: (indentJ d ++ ']' :: rest)
  | .cons y ys => ',' :: '\n' :: (ppItems d (.cons y ys) ++ '\n' :: (indentJ d ++ ']' :: rest))

/-- The object analogue of `afterItem`. -/
def afterMemb (d : Nat) (ms : JsonMembers) (rest : List Char) : List Char :=
  match ms with
  | .nil => '\n' :: (indentJ d ++ rbrace :: rest)
  | .cons k w ms' =>
    ',' :: '\n' :: (ppMembers d (.cons k w ms') ++ '\n' :: (indentJ d ++ rbrace :: rest))

/-- A JSON value whose two-space serialisation exceeds the display cap. -/
def jbig : Json := .str (List.replicate 5001 'a')

/-- A JSON file. -/
def c6File : FileMeta := { name := "data.json".toList, type := "application/json", size := 6 }

/-- A small JSON document. -/
def c6Content : List Char := "[1, 2]".toList

/-- The value `c6Content` denotes. -/
def c6Value : Json := .arr (.cons (.num 1) (.cons (.num 2) .nil))

/-! ## Claims about validation, submission and slot removal -/

/-- Claim C2, counterexample: a type-valid CSV file one byte over 10 MiB
    matches the allow-list criterion yet is not accepted (the size check runs
    first and rejects it as too large), so acceptance is not equivalent to the
    type criterion over all files. -/
theorem genericTypeOk_not_sufficient_for_accept :
    genericTypeOk bigCsvFile = true ∧
    validateAndUploadFile bigCsvFile = .tooLarge ∧
    validateAndUploadFile bigCsvFile ≠ .accepted := by decide

/-- Claim C2 (amended): for files within the generic flow's 10 MiB limit,
    `validateAndUploadFile` accepts exactly the files whose MIME type is in
    the allow-list or whose name matches an allowed extension
    case-insensitively, and rejects every other file with `bad_type`; the
    Excel-pair validation is this equivalence with the Excel allow-list and
    extensions, for every file. -/
theorem validate_accept_iff_type_ok (f g : FileMeta) :
    (f.size ≤ 10 * 1024 * 1024 →
      ((validateAndUploadFile f = .accepted ↔ genericTypeOk f = true) ∧
       (validateAndUploadFile f = .badType ↔ genericTypeOk f = false))) ∧
    (f.size > 10 * 1024 * 1024 → validateAndUploadFile f = .tooLarge) ∧
    (handleFileUploadValidate g = .accepted ↔ excelTypeOk g = true) ∧
    (handleFileUploadValidate g = .badType ↔ excelTypeOk g = false) := by
  refine ⟨?_, ?_, ?_⟩
  · intro hsize
    have hns : ¬ (f.size > 10 * 1024 * 1024) := by omega
    unfold validateAndUploadFile
    rw [if_neg hns]
    rcases hgen : genericTypeOk f <;> simp
  · intro hbig
    unfold validateAndUploadFile
    rw [if_pos hbig]
  · unfold handleFileUploadValidate
    rcases hexc : excelTypeOk g <;> simp

/-- Witness for `validate_accept_iff_type_ok` at a plain-text file, an
    oversized type-valid CSV, and an Excel-named file. -/
theorem validate_accept_iff_type_ok_witness :
    validateAndUploadFile wTxtFile = .accepted ∧
    validateAndUploadFile bigCsvFile = .tooLarge ∧
    handleFileUploadValidate wXlsxFile = .accepted := by
  have h := validate_accept_iff_type_ok wTxtFile wXlsxFile
  have h2 := validate_accept_iff_type_ok bigCsvFile wXlsxFile
  exact ⟨(h.1 (by decide)).1.mpr (by decide), h2.2.1 (by decide), h.2.2.1.mpr (by decide)⟩

/-- Claim C3: every file over 10 MiB is rejected as too large by the generic
    flow's validation, while the Excel-pair flow applies no size limit: any
    type-valid file is accepted there whatever its byte size. -/
theorem size_limit_generic_none_excel (f g : FileMeta)
    (hf : f.size > 10 * 1024 * 1024) (hg : excelTypeOk g = true) :
    validateAndUploadFile f = .tooLarge ∧ handleFileUploadValidate g = .accepted := by
  constructor
  · unfold validateAndUploadFile
    rw [if_pos hf]
  · unfold handleFileUploadValidate
    simp [hg]

/-- Witness for `size_limit_generic_none_excel`: an oversized CSV file and an
    11 MiB Excel file. -/
theorem size_limit_generic_none_excel_witness :
    validateAndUploadFile bigCsvFile = .tooLarge ∧
    handleFileUploadValidate wXlsxFile = .accepted :=
  size_limit_generic_none_excel bigCsvFile wXlsxFile (by decide) (by decide)

/-- Claim C7: with at most one of the two required slots populated,
    `handleSubmit` reports the missing files, issues no network request, and
    leaves the state exactly as it was. -/
theorem handleSubmit_missing_files (s : IndexState) (resp : HttpResponse) (url : String)
    (h : s.expenseTypeFile = none ∨ s.transactionsFile = none) :
    handleSubmit s resp url =
      { state := s, request := none, error := some .missingRequiredFiles } := by
  rcases hE : s.expenseTypeFile with _ | ef <;> rcases hT : s.transactionsFile with _ | tf <;>
    simp_all [handleSubmit]

/-- Witness for `handleSubmit_missing_files`: only the transactions slot is
    populated. -/
theorem handleSubmit_missing_files_witness :
    handleSubmit
        { expenseTypeFile := none, transactionsFile := some wXlsxFile,
          isProcessing := false, zipFileUrl := none, zipFileName := [] }
        { ok := true, contentDisposition := none } "blob:demo" =
      { state := { expenseTypeFile := none, transactionsFile := some wXlsxFile,
                   isProcessing := false, zipFileUrl := none, zipFileName := [] },
        request := none, error := some .missingRequiredFiles } :=
  handleSubmit_missing_files _ _ _ (Or.inl rfl)

/-- Claim C10: `removeFile` clears exactly the named slot and leaves the other
    slot, the prepared download URL, the download filename and the processing
    flag unchanged. -/
theorem removeFile_frame (s : IndexState) :
    (removeFile s .expenseType).expenseTypeFile = none ∧
    (removeFile s .expenseType).transactionsFile = s.transactionsFile ∧
    (removeFile s .expenseType).zipFileUrl = s.zipFileUrl ∧
    (removeFile s .expenseType).zipFileName = s.zipFileName ∧
    (removeFile s .expenseType).isProcessing = s.isProcessing ∧
    (removeFile s .transactions).transactionsFile = none ∧
    (removeFile s .transactions).expenseTypeFile = s.expenseTypeFile ∧
    (removeFile s .transactions).zipFileUrl = s.zipFileUrl ∧
    (removeFile s .transactions).zipFileName = s.zipFileName ∧
    (removeFile s .transactions).isProcessing = s.isProcessing := by
  simp [removeFile]

/-! ## Claims about the preformatted-text preview -/

/-- Claim C5: a non-CSV, non-image text preview shows exactly the first 5000
    characters followed by the truncation marker when the content is longer
    than 5000 characters, and the whole content with no marker otherwise. -/
theorem text_preview_truncation (file : FileMeta) (content : List Char)
    (himg : typeIncludesImage file.type = false) (hcsv : csvDetect file = false) :
    (5000 < content.length →
      renderContent file false none content = .textView (content.take 5000 ++ truncMarker)) ∧
    (content.length ≤ 5000 → renderContent file false none content = .textView content) := by
  constructor <;> intro h
  · simp only [renderContent, himg, hcsv, renderTextL, Bool.false_eq_true, if_false]
    rw [if_pos h]
  · simp only [renderContent, himg, hcsv, renderTextL, Bool.false_eq_true, if_false]
    rw [if_neg (by omega)]

/-- Witness for `text_preview_truncation`: a five-character text file renders
    in full. -/
theorem text_preview_truncation_witness :
    renderContent wTxtFile false none ("hello".toList) = .textView ("hello".toList) :=
  (text_preview_truncation wTxtFile ("hello".toList) (by decide) (by decide)).2 (by decide)

/-! ## Claims about empty files and stale reads -/

/-- Claim C9, counterexample: an empty file marked as JSON passes validation,
    but reading it runs `JSON.parse('')`, which throws, so the preview shows
    the read-failure message instead of an empty preview. -/
theorem empty_json_file_previews_as_error :
    validateAndUploadFile emptyJsonFile = .accepted ∧
    readerOnload emptyJsonFile [] = .failure readFailMsg ∧
    renderContent emptyJsonFile false (some readFailMsg) [] = .errorView readFailMsg := by
  decide

/-- Claim C9 (amended): size-0 files satisfying the type rule pass validation
    (in both flows), and for files not marked as JSON the read of empty
    content succeeds with empty content, which the text branch renders in
    full with no marker; a JSON-marked empty file instead surfaces the
    read-failure message, since empty text is not valid JSON. -/
theorem empty_file_validation_and_preview (f : FileMeta) (hsize : f.size = 0)
    (hgen : genericTypeOk f = true) :
    validateAndUploadFile f = .accepted ∧
    (excelTypeOk f = true → handleFileUploadValidate f = .accepted) ∧
    (jsonMarked f = false → readerOnload f [] = .content []) ∧
    (jsonMarked f = true → readerOnload f [] = .failure readFailMsg) ∧
    renderTextL [] = [] := by
  refine ⟨?_, ?_, ?_, ?_, rfl⟩
  · unfold validateAndUploadFile
    rw [if_neg (by omega), if_pos hgen]
  · intro h
    unfold handleFileUploadValidate
    rw [if_pos h]
  · intro h
    unfold readerOnload
    rw [h]
    rfl
  · intro h
    unfold readerOnload
    rw [h]
    rfl

/-- Witness for `empty_file_validation_and_preview`: an empty `.txt` file is
    accepted and previews as empty content. -/
theorem empty_file_validation_and_preview_witness :
    validateAndUploadFile emptyTxtFile = .accepted ∧
    readerOnload emptyTxtFile [] = .content [] := by
  have h := empty_file_validation_and_preview emptyTxtFile (by decide) (by decide)
  exact ⟨h.1, h.2.2.1 (by decide)⟩

/-- Claim C1 (the code violates it): the preview target receives `F1`, then
    `F2` before `F1`'s read completes; `F2`'s read completes first, then
    `F1`'s stale read completes — and, with no cleanup or identity check in
    the effect, the stale `onload` still stores `F1`'s content, so the
    displayed preview is `F1`'s content, not that of the currently referenced
    `F2`. -/
theorem stale_read_updates_preview_state :
    (runPreview previewEnv staleTrace).1.content = previewEnv previewF1 ∧
    previewEnv previewF1 ≠ previewEnv previewF2 ∧
    (runPreview previewEnv staleTrace).1.loading = false := by decide

/-! ## Claims about the CSV preview -/

/-- `split` never returns an empty array: there is always a first line. -/
theorem splitCh_cons_shape (sep : Char) (s : List Char) :
    ∃ a t, splitCh sep s = a :: t := by
  induction s with
  | nil => exact ⟨[], [], rfl⟩
  | cons c cs ih =>
    obtain ⟨a, t, h⟩ := ih
    simp only [splitCh]
    rw [h]
    by_cases hc : c = sep
    · exact ⟨[], a :: t, by simp [hc]⟩
    · exact ⟨c :: a, t, by simp [hc]⟩

/-- Claim C4: the CSV preview is a table built from at most the first 10
    lines: the header is line 0 split on commas with each cell trimmed, the
    body is lines 1 through 9 split and trimmed the same way (so
    `min lines 10 - 1` rows), and a footer stating the total line count
    appears exactly when there are more than 10 lines.  In particular, 15
    lines with a 3-field header yield 3 header cells, 9 data rows and a
    footer mentioning 15. -/
theorem csv_preview_table (file : FileMeta) (content : List Char)
    (hcsv : csvDetect file = true) (himg : typeIncludesImage file.type = false) :
    ∃ hdr body footer,
      renderContent file false none content = .tableView hdr body footer ∧
      hdr = (splitCh ',' ((splitCh '\n' content).headD [])).map trimL ∧
      body = (((splitCh '\n' content).take 10).drop 1).map
               (fun line => (splitCh ',' line).map trimL) ∧
      body.length = min (splitCh '\n' content).length 10 - 1 ∧
      footer = (if 10 < (splitCh '\n' content).length
                then some (splitCh '\n' content).length else none) ∧
      ((splitCh '\n' content).length = 15 ∧
         (splitCh ',' ((splitCh '\n' content).headD [])).length = 3 →
        hdr.length = 3 ∧ body.length = 9 ∧ footer = some 15) := by
  obtain ⟨a, t, hs⟩ := splitCh_cons_shape '\n' content
  refine ⟨(splitCh ',' a).map trimL,
      ((t.take 9).map (splitCh ',')).map (fun row => row.map trimL),
      (if 10 < (a :: t).length then some (a :: t).length else none),
      ?_, ?_, ?_, ?_, ?_, ?_⟩
  · simp only [renderContent, himg, hcsv, Bool.false_eq_true, if_false]
    rw [hs]
    simp only [List.take_succ_cons, List.map_cons, List.length_cons, List.headD_cons,
      List.drop_succ_cons, List.drop_zero]
    rw [if_pos (Nat.succ_pos _)]
    simp
  · rw [hs]
    simp
  · rw [hs]
    simp [List.map_map]
    rfl
  · rw [hs]
    simp only [List.take_succ_cons, List.drop_succ_cons, List.drop_zero, List.length_map,
      List.length_take, List.length_cons]
    omega
  · rw [hs]
  · intro ⟨h15, h3⟩
    rw [hs] at h15
    simp only [hs, List.headD_cons] at h3
    simp only [List.length_cons] at h15
    refine ⟨by simp [h3], ?_, ?_⟩
    · simp only [List.length_map, List.length_take]
      omega
    · simp only [List.length_cons]
      rw [if_pos (by omega)]
      exact congrArg some h15

/-- Witness for `csv_preview_table`: fifteen lines with a three-field header
    render as 3 trimmed header cells, 9 data rows, and a footer noting 15. -/
theorem csv_preview_table_witness :
    ∃ hdr body footer,
      renderContent wCsvFile false none wCsvContent = .tableView hdr body footer ∧
      hdr = (splitCh ',' ((splitCh '\n' wCsvContent).headD [])).map trimL ∧
      body = (((splitCh '\n' wCsvContent).take 10).drop 1).map
               (fun line => (splitCh ',' line).map trimL) ∧
      body.length = min (splitCh '\n' wCsvContent).length 10 - 1 ∧
      footer = (if 10 < (splitCh '\n' wCsvContent).length
                then some (splitCh '\n' wCsvContent).length else none) ∧
      ((splitCh '\n' wCsvContent).length = 15 ∧
         (splitCh ',' ((splitCh '\n' wCsvContent).headD [])).length = 3 →
        hdr.length = 3 ∧ body.length = 9 ∧ footer = some 15) :=
  csv_preview_table wCsvFile wCsvContent (by decide) (by decide)

/-! ## Claims about the download filename extraction -/

/-- Claim C8, counterexample: with a quoted filename containing an interior
    double quote, the code removes every quote (global `replace`), not just
    the surrounding ones, so the exposed name differs from the claim's stated
    pattern. -/
theorem filename_extraction_quote_cex :
    extractFilename (some cdHeader) = "myfile.zip".toList ∧
    specFilename (some cdHeader) = some ("my\"file.zip".toList) ∧
    extractFilename (some cdHeader) ≠ "my\"file.zip".toList := by decide

/-- A prefix of a suffix is an infix. -/
theorem infix_of_prefix_drop {sep s : List Char} {i : Nat} (h : sep <+: s.drop i) :
    sep <:+: s := by
  obtain ⟨t, ht⟩ := h
  refine ⟨s.take i, t, ?_⟩
  rw [List.append_assoc, ht, List.take_append_drop]

/-- Positional form of «does not occur». -/
theorem not_infix_no_prefix_drop {sep s : List Char} (h : ¬ sep <:+: s) :
    ∀ i, ¬ sep <+: s.drop i :=
  fun _ hp => h (infix_of_prefix_drop hp)

/-- The fuel of `splitOnSeqGo` is irrelevant once it covers the input. -/
theorem splitOnSeqGo_fuel (sep : List Char) :
    ∀ (f : Nat) (s : List Char) (g : Nat), s.length ≤ f → s.length ≤ g →
      splitOnSeqGo sep f s = splitOnSeqGo sep g s := by
  intro f
  induction f with
  | zero =>
    intro s g hf _
    rw [List.length_eq_zero.mp (Nat.le_zero.mp hf)]
    cases g <;> rfl
  | succ f ih =>
    intro s g hf hg
    cases s with
    | nil => cases g <;> rfl
    | cons x xs =>
      cases g with
      | zero => simp at hg
      | succ g' =>
        simp only [splitOnSeqGo]
        by_cases h : sep ≠ [] ∧ sep.isPrefixOf (x :: xs)
        · rw [if_pos h, if_pos h]
          have hsep1 : 1 ≤ sep.length := by
            cases hsp : sep with
            | nil => exact absurd hsp h.1
            | cons a t => simp
          simp only [List.length_cons] at hf hg
          rw [ih ((x :: xs).drop sep.length) g'
            (by simp only [List.length_drop, List.length_cons]; omega)
            (by simp only [List.length_drop, List.length_cons]; omega)]
        · rw [if_neg h, if_neg h]
          simp only [List.length_cons] at hf hg
          rw [ih xs g' (by omega) (by omega)]

/-- When the separator occurs nowhere in the input, `split` returns the whole
    input as its only part. -/
theorem splitOnSeqGo_no_occ {sep : List Char} :
    ∀ (s : List Char) (f : Nat), s.length ≤ f → (∀ i, ¬ sep <+: s.drop i) →
      splitOnSeqGo sep f s = [s] := by
  intro s
  induction s with
  | nil => intro f _ _; cases f <;> rfl
  | cons x xs ih =>
    intro f hf hocc
    cases f with
    | zero => simp at hf
    | succ f' =>
      have hnp : ¬ sep.isPrefixOf (x :: xs) := by
        intro hp
        exact hocc 0 (by simpa using List.isPrefixOf_iff_prefix.mp hp)
      simp only [splitOnSeqGo]
      rw [if_neg (by tauto)]
      rw [ih f' (by simp only [List.length_cons] at hf; omega)
        (fun i => by simpa using hocc (i + 1))]

/-- One step of the split when the separator matches at the head. -/
theorem splitOnSeqGo_cons_pre {sep : List Char} {x : Char} {xs : List Char} {f : Nat}
    (hsep : sep ≠ []) (h : sep.isPrefixOf (x :: xs) = true) :
    splitOnSeqGo sep (f + 1) (x :: xs) =
      [] :: splitOnSeqGo sep f ((x :: xs).drop sep.length) := by
  simp only [splitOnSeqGo]
  rw [if_pos ⟨hsep, h⟩]

/-- One step of the split when the separator does not match at the head. -/
theorem splitOnSeqGo_cons_notpre {sep : List Char} {x : Char} {xs : List Char} {f : Nat}
    (h : ¬ sep.isPrefixOf (x :: xs) = true) :
    splitOnSeqGo sep (f + 1) (x :: xs) =
      match splitOnSeqGo sep f xs with
      | r :: rs => (x :: r) :: rs
      | [] => [[]] := by
  simp only [splitOnSeqGo]
  rw [if_neg (fun hcon => h hcon.2)]

/-- Splitting `p ++ sep ++ n` where no occurrence of `sep` starts inside `p`
    and none occurs in `n` yields exactly the two parts `p` and `n`. -/
theorem splitOnSeq_boundary {sep : List Char} (hsep : sep ≠ []) :
    ∀ (p : List Char) (f : Nat) (n : List Char), (p ++ sep ++ n).length ≤ f →
      (∀ i, i < p.length → ¬ sep <+: ((p ++ sep ++ n).drop i)) →
      (∀ i, ¬ sep <+: n.drop i) →
      splitOnSeqGo sep f (p ++ sep ++ n) = [p, n] := by
  obtain ⟨a, sep', hsp⟩ : ∃ a t, sep = a :: t := by
    cases hc : sep with
    | nil => exact absurd hc hsep
    | cons x y => exact ⟨x, y, rfl⟩
  subst hsp
  intro p
  induction p with
  | nil =>
    intro f n hf _ h2
    simp only [List.nil_append] at hf ⊢
    cases f with
    | zero => simp at hf
    | succ f' =>
      have hcons : (a :: sep') ++ n = a :: (sep' ++ n) := List.cons_append _ _ _
      have hpre : (a :: sep').isPrefixOf (a :: (sep' ++ n)) = true := by
        rw [← hcons]
        exact List.isPrefixOf_iff_prefix.mpr (List.prefix_append _ _)
      have hdrop : (a :: (sep' ++ n)).drop (a :: sep').length = n := by
        rw [← hcons]
        exact List.drop_left _ _
      have hno := @splitOnSeqGo_no_occ (a :: sep') n f'
        (by simp only [List.cons_append, List.length_append, List.length_cons] at hf; omega)
        h2
      rw [hcons, splitOnSeqGo_cons_pre hsep hpre, hdrop, hno]
  | cons c p' ih =>
    intro f n hf h1 h2
    cases f with
    | zero => simp at hf
    | succ f' =>
      have hcons : (c :: p') ++ (a :: sep') ++ n = c :: (p' ++ (a :: sep') ++ n) := by
        simp
      have hnp : ¬ (a :: sep').isPrefixOf (c :: (p' ++ (a :: sep') ++ n)) = true := by
        intro hp
        have h0 := h1 0 (by simp)
        simp only [List.drop_zero] at h0
        rw [hcons] at h0
        exact h0 (List.isPrefixOf_iff_prefix.mp hp)
      have hih := ih f' n
        (by simp only [List.cons_append, List.length_cons] at hf; omega)
        (fun i hi => by
          have hsh := h1 (i + 1) (by simpa using Nat.succ_lt_succ hi)
          simpa using hsh)
        h2
      rw [hcons, splitOnSeqGo_cons_notpre hnp, hih]

/-- Splitting `p ++ sep ++ r` where no occurrence of `sep` starts inside `p`
    cuts off `p` first and then splits `r` on its own. -/
theorem splitOnSeqGo_first_cut {sep : List Char} (hsep : sep ≠ []) :
    ∀ (p : List Char) (f : Nat) (r : List Char), (p ++ sep ++ r).length ≤ f →
      (∀ i, i < p.length → ¬ sep <+: ((p ++ sep ++ r).drop i)) →
      splitOnSeqGo sep f (p ++ sep ++ r) = p :: splitOnSeq sep r := by
  obtain ⟨a, sep', hsp⟩ : ∃ a t, sep = a :: t := by
    cases hc : sep with
    | nil => exact absurd hc hsep
    | cons x y => exact ⟨x, y, rfl⟩
  subst hsp
  intro p
  induction p with
  | nil =>
    intro f r hf _
    simp only [List.nil_append] at hf ⊢
    cases f with
    | zero => simp at hf
    | succ f' =>
      have hcons : (a :: sep') ++ r = a :: (sep' ++ r) := List.cons_append _ _ _
      have hpre : (a :: sep').isPrefixOf (a :: (sep' ++ r)) = true := by
        rw [← hcons]
        exact List.isPrefixOf_iff_prefix.mpr (List.prefix_append _ _)
      have hdrop : (a :: (sep' ++ r)).drop (a :: sep').length = r := by
        rw [← hcons]
        exact List.drop_left _ _
      rw [hcons, splitOnSeqGo_cons_pre hsep hpre, hdrop,
        splitOnSeqGo_fuel (a :: sep') f' r r.length
          (by simp only [List.cons_append, List.length_append, List.length_cons] at hf; omega)
          le_rfl]
      rfl
  | cons c p' ih =>
    intro f r hf h1
    cases f with
    | zero => simp at hf
    | succ f' =>
      have hcons : (c :: p') ++ (a :: sep') ++ r = c :: (p' ++ (a :: sep') ++ r) := by
        simp
      have hnp : ¬ (a :: sep').isPrefixOf (c :: (p' ++ (a :: sep') ++ r)) = true := by
        intro hp
        have h0 := h1 0 (by simp)
        simp only [List.drop_zero] at h0
        rw [hcons] at h0
        exact h0 (List.isPrefixOf_iff_prefix.mp hp)
      have hih := ih f' r
        (by simp only [List.cons_append, List.length_cons] at hf; omega)
        (fun i hi => by
          have hsh := h1 (i + 1) (by simpa using Nat.succ_lt_succ hi)
          simpa using hsh)
      rw [hcons, splitOnSeqGo_cons_notpre hnp, hih]

/-- Claim C8 (amended): the exposed download filename is the text between the
    first `filename=` and the next occurrence (or the end of the header) with
    every double-quote character removed — not only surrounding ones; the
    default `processed-files.zip` is used when the header is absent, when it
    contains no `filename=`, and when the remainder is empty after quote
    removal. -/
theorem filename_extraction_amended :
    extractFilename none = defaultZipName ∧
    (∀ s : List Char, ¬ fnSep <:+: s → extractFilename (some s) = defaultZipName) ∧
    (∀ p n : List Char,
      (∀ i, i < p.length → ¬ fnSep <+: ((p ++ fnSep ++ n).drop i)) →
      ¬ fnSep <:+: n →
      extractFilename (some (p ++ fnSep ++ n)) =
        (if (n.filter (fun c => c ≠ '\"')).isEmpty then defaultZipName
         else n.filter (fun c => c ≠ '\"'))) ∧
    (∀ p m t : List Char,
      (∀ i, i < p.length → ¬ fnSep <+: ((p ++ fnSep ++ (m ++ fnSep ++ t)).drop i)) →
      (∀ i, i < m.length → ¬ fnSep <+: ((m ++ fnSep ++ t).drop i)) →
      extractFilename (some (p ++ fnSep ++ (m ++ fnSep ++ t))) =
        (if (m.filter (fun c => c ≠ '\"')).isEmpty then defaultZipName
         else m.filter (fun c => c ≠ '\"'))) := by
  refine ⟨rfl, ?_, ?_, ?_⟩
  · intro s hocc
    have hsp : splitOnSeq fnSep s = [s] :=
      splitOnSeqGo_no_occ s s.length le_rfl (not_infix_no_prefix_drop hocc)
    simp only [extractFilename]
    rw [hsp]
    rfl
  · intro p n h1 h2
    have hsp : splitOnSeq fnSep (p ++ fnSep ++ n) = [p, n] := by
      show splitOnSeqGo fnSep (p ++ fnSep ++ n).length (p ++ fnSep ++ n) = [p, n]
      rw [splitOnSeqGo_first_cut (by decide) p (p ++ fnSep ++ n).length n le_rfl h1]
      exact congrArg _
        (splitOnSeqGo_no_occ n n.length le_rfl (not_infix_no_prefix_drop h2))
    simp only [extractFilename]
    rw [hsp]
    rfl
  · intro p m t h1 h2
    have hsp : splitOnSeq fnSep (p ++ fnSep ++ (m ++ fnSep ++ t))
        = p :: m :: splitOnSeq fnSep t := by
      show splitOnSeqGo fnSep (p ++ fnSep ++ (m ++ fnSep ++ t)).length
          (p ++ fnSep ++ (m ++ fnSep ++ t)) = p :: m :: splitOnSeq fnSep t
      rw [splitOnSeqGo_first_cut (by decide) p
        (p ++ fnSep ++ (m ++ fnSep ++ t)).length (m ++ fnSep ++ t) le_rfl h1]
      exact congrArg _
        (splitOnSeqGo_first_cut (by decide) m (m ++ fnSep ++ t).length t le_rfl h2)
    simp only [extractFilename]
    rw [hsp]
    rfl

/-- Witness for `filename_extraction_amended`: an absent header, a header
    without the pattern, the documented single-occurrence shape, and a header
    with two occurrences of the pattern. -/
theorem filename_extraction_amended_witness :
    extractFilename none = defaultZipName ∧
    extractFilename (some c8Bare) = defaultZipName ∧
    extractFilename (some (c8Prefix ++ fnSep ++ c8Name)) = "result.zip".toList ∧
    extractFilename (some (c8Prefix ++ fnSep ++ (c8Mid ++ fnSep ++ c8Tail)))
      = "a.zip; ".toList := by
  obtain ⟨ha, hb, hc, hd⟩ := filename_extraction_amended
  refine ⟨ha, hb c8Bare (by decide), ?_, ?_⟩
  · rw [hc c8Prefix c8Name (by decide) (by decide)]
    decide
  · rw [hd c8Prefix c8Mid c8Tail (by decide) (by decide)]
    decide

/-! ## Round-trip of the JSON printer and parser

`reader.onload` re-serialises every parsed value; the claims about JSON
previews need that parsing the serialised text recovers the value.  The
development below proves `parseJson (stringify2 v) = some v`, working through
numbers, strings, and the mutual structure, with the pretty-printer's
whitespace absorbed by `skipWs`.
-/

/-- The digit character of `k < 10` carries exactly `k` and is a digit. -/
theorem digit_char_spec (k : Nat) (h : k < 10) :
    (Char.ofNat ('0'.toNat + k)).toNat - '0'.toNat = k
      ∧ isDigitJ (Char.ofNat ('0'.toNat + k)) = true := by
  have hall : ∀ m : Fin 10,
      (Char.ofNat ('0'.toNat + m.val)).toNat - '0'.toNat = m.val
        ∧ isDigitJ (Char.ofNat ('0'.toNat + m.val)) = true := by decide
  exact hall ⟨k, h⟩

/-- `natDigitsGo` ignores the fuel once it covers the number. -/
theorem natDigitsGo_fuel :
    ∀ (f : Nat) (n : Nat) (g : Nat) (acc : List Char), n ≤ f → n ≤ g →
      natDigitsGo f n acc = natDigitsGo g n acc := by
  intro f
  induction f with
  | zero =>
    intro n g acc hf _
    have hn : n = 0 := Nat.le_zero.mp hf
    subst hn
    cases g with
    | zero => rfl
    | succ g' => simp [natDigitsGo]
  | succ f ih =>
    intro n g acc hf hg
    by_cases hn : n < 10
    · cases g with
      | zero =>
        have : n = 0 := Nat.le_zero.mp hg
        subst this
        simp [natDigitsGo]
      | succ g' => simp [natDigitsGo, hn]
    · cases g with
      | zero => omega
      | succ g' =>
        simp only [natDigitsGo, if_neg hn]
        exact ih (n / 10) g' _ (by omega) (by omega)

/-- Unfolding `natDigits` below ten. -/
theorem natDigits_low {n : Nat} (h : n < 10) (acc : List Char) :
    natDigits n acc = Char.ofNat ('0'.toNat + n % 10) :: acc := by
  cases n with
  | zero => rfl
  | succ m => simp [natDigits, natDigitsGo, h]

/-- Unfolding `natDigits` from ten upwards. -/
theorem natDigits_high {n : Nat} (h : 10 ≤ n) (acc : List Char) :
    natDigits n acc = natDigits (n / 10) (Char.ofNat ('0'.toNat + n % 10) :: acc) := by
  cases n with
  | zero => omega
  | succ m =>
    show natDigitsGo (m + 1) (m + 1) acc = _
    simp only [natDigitsGo, if_neg (by omega : ¬ m + 1 < 10)]
    exact natDigitsGo_fuel m ((m + 1) / 10) ((m + 1) / 10) _ (by omega) le_rfl

/-- The accumulator rides along on the right of the digits. -/
theorem natDigits_append (n : Nat) : ∀ acc : List Char,
    natDigits n acc = natDigits n [] ++ acc := by
  induction n using Nat.strongRecOn with
  | _ n ih =>
    intro acc
    by_cases h : n < 10
    · rw [natDigits_low h, natDigits_low h]
      simp
    · have h10 : 10 ≤ n := by omega
      rw [natDigits_high h10 acc, natDigits_high h10 ([]),
        ih (n / 10) (by omega) (Char.ofNat ('0'.toNat + n % 10) :: acc),
        ih (n / 10) (by omega) ([Char.ofNat ('0'.toNat + n % 10)])]
      simp

/-- One unfolding of the digit run, least-significant digit last. -/
theorem natDigits_unfold (n : Nat) :
    natDigits n [] = (if n < 10 then [] else natDigits (n / 10) [])
      ++ [Char.ofNat ('0'.toNat + n % 10)] := by
  by_cases h : n < 10
  · rw [natDigits_low h]
    simp [h]
  · rw [natDigits_high (by omega), natDigits_append]
    simp [h]

/-- A digit run is never empty. -/
theorem natDigits_ne_nil (n : Nat) : natDigits n [] ≠ [] := by
  rw [natDigits_unfold]
  simp

/-- Every character of a digit run is a digit. -/
theorem natDigits_all_digits (n : Nat) : ∀ c ∈ natDigits n [], isDigitJ c = true := by
  induction n using Nat.strongRecOn with
  | _ n ih =>
    rw [natDigits_unfold]
    intro c hc
    rcases List.mem_append.mp hc with h | h
    · by_cases h10 : n < 10
      · simp [h10] at h
      · exact ih (n / 10) (by omega) c (by simpa [h10] using h)
    · rw [List.mem_singleton] at h
      subst h
      exact (digit_char_spec (n % 10) (Nat.mod_lt _ (by omega))).2

/-- Folding the digit run back recovers the number. -/
theorem digitsToNat_natDigits (n : Nat) : digitsToNat (natDigits n []) = n := by
  induction n using Nat.strongRecOn with
  | _ n ih =>
    rw [digitsToNat, natDigits_unfold, List.foldl_append]
    by_cases h : n < 10
    · simp only [if_pos h, List.foldl_nil, List.foldl_cons]
      rw [(digit_char_spec (n % 10) (Nat.mod_lt _ (by omega))).1]
      omega
    · simp only [if_neg h, List.foldl_cons, List.foldl_nil]
      have hfold := ih (n / 10) (by omega)
      rw [digitsToNat] at hfold
      rw [hfold, (digit_char_spec (n % 10) (Nat.mod_lt _ (by omega))).1]
      omega

/-- A digit run starts with a digit, and with `'0'` only for zero itself. -/
theorem natDigits_head (n : Nat) :
    ∃ c t, natDigits n [] = c :: t ∧ isDigitJ c = true ∧ (n ≠ 0 → c ≠ '0') := by
  induction n using Nat.strongRecOn with
  | _ n ih =>
    by_cases h : n < 10
    · refine ⟨Char.ofNat ('0'.toNat + n % 10), [], by rw [natDigits_low h], ?_, ?_⟩
      · exact (digit_char_spec (n % 10) (Nat.mod_lt _ (by omega))).2
      · intro hn
        match n, h, hn with
        | 1, _, _ => decide
        | 2, _, _ => decide
        | 3, _, _ => decide
        | 4, _, _ => decide
        | 5, _, _ => decide
        | 6, _, _ => decide
        | 7, _, _ => decide
        | 8, _, _ => decide
        | 9, _, _ => decide
    · obtain ⟨c, t, hct, hdig, hc0⟩ := ih (n / 10) (by omega)
      refine ⟨c, t ++ [Char.ofNat ('0'.toNat + n % 10)], ?_, hdig, fun _ => hc0 (by omega)⟩
      rw [natDigits_unfold, if_neg h, hct]
      simp

/-- What a number delimiter guarantees about the head character. -/
theorem numDelim_head {x : Char} {t : List Char} (h : numDelim (x :: t) = true) :
    isDigitJ x = false ∧ x ≠ '.' ∧ x ≠ 'e' ∧ x ≠ 'E' := by
  simp only [numDelim, Bool.not_eq_true', Bool.or_eq_false_iff, decide_eq_false_iff_not] at h
  exact ⟨h.1.1.1, h.1.1.2, h.1.2, h.2⟩

/-- `takeDigits` takes nothing from a delimited remainder. -/
theorem takeDigits_stop {rest : List Char} (h : numDelim rest = true) :
    takeDigits rest = ([], rest) := by
  cases rest with
  | nil => rfl
  | cons x t =>
    have hx := (numDelim_head h).1
    simp [takeDigits, hx]

/-- `takeDigits` consumes exactly a leading digit run. -/
theorem takeDigits_run :
    ∀ (ds : List Char), (∀ c ∈ ds, isDigitJ c = true) →
      ∀ {rest : List Char}, takeDigits rest = ([], rest) →
      takeDigits (ds ++ rest) = (ds, rest) := by
  intro ds
  induction ds with
  | nil => intro _ rest h; simpa using h
  | cons c t ih =>
    intro hds rest hrest
    have hc : isDigitJ c = true := hds c (by simp)
    have ht := ih (fun x hx => hds x (by simp [hx])) hrest
    simp [takeDigits, hc, ht]

/-- Parsing an unsigned rendered number recovers it, for any delimited
    remainder. -/
theorem parseNatNum_natDigits (m : Nat) {rest : List Char} (h : numDelim rest = true) :
    parseNatNum (natDigits m [] ++ rest) = some (m, rest) := by
  obtain ⟨c, t, hct, hdig, hc0⟩ := natDigits_head m
  have hdt : digitsToNat (c :: t) = m := by
    rw [← hct, digitsToNat_natDigits]
  by_cases hm : m = 0
  · subst hm
    have h0 : natDigits 0 [] = ['0'] := rfl
    rw [h0]
    cases rest with
    | nil => rfl
    | cons x rt =>
      obtain ⟨hx, hdot, he, hE⟩ := numDelim_head h
      have hred : parseNatNum ('0' :: x :: rt)
          = (if x = '.' ∨ x = 'e' ∨ x = 'E' then none else some (0, x :: rt)) := rfl
      simp only [List.cons_append, List.nil_append, hred]
      rw [if_neg (by tauto)]
  · have hcne : c ≠ '0' := hc0 hm
    have htall : ∀ x ∈ t, isDigitJ x = true := by
      intro x hx
      exact natDigits_all_digits m x (hct ▸ List.mem_cons_of_mem c hx)
    have htd : takeDigits (t ++ rest) = (t, rest) := takeDigits_run t htall (takeDigits_stop h)
    rw [hct, List.cons_append]
    simp only [parseNatNum]
    rw [if_pos hdig, if_neg hcne, htd]
    cases rest with
    | nil => simpa using hdt
    | cons x rt =>
      obtain ⟨hx, hdot, he, hE⟩ := numDelim_head h
      dsimp only
      rw [if_neg (by tauto)]
      simpa using hdt

/-- Parsing a rendered integer recovers it, for any delimited remainder. -/
theorem parseNum_intChars (i : Int) {rest : List Char} (h : numDelim rest = true) :
    parseNum (intChars i ++ rest) = some (i, rest) := by
  by_cases hi : i < 0
  · have harg : intChars i ++ rest = '-' :: (natDigits i.natAbs [] ++ rest) := by
      simp [intChars, hi]
    rw [harg]
    simp only [parseNum, if_true]
    rw [parseNatNum_natDigits i.natAbs h]
    have hcast : -(i.natAbs : Int) = i := by omega
    dsimp only
    rw [hcast]
  · obtain ⟨c, t, hct, hdig, _⟩ := natDigits_head i.natAbs
    have hcm : c ≠ '-' := by
      intro hc
      subst hc
      exact absurd hdig (by decide)
    have harg : intChars i ++ rest = c :: (t ++ rest) := by
      simp [intChars, hi, hct]
    rw [harg]
    simp only [parseNum]
    rw [if_neg hcm]
    have : c :: (t ++ rest) = natDigits i.natAbs [] ++ rest := by
      rw [hct, List.cons_append]
    rw [this, parseNatNum_natDigits i.natAbs h]
    have hcast : (i.natAbs : Int) = i := by omega
    dsimp only
    rw [hcast]

/-- `hexVal` inverts `hexDigit` on one digit. -/
theorem hexVal_hexDigit (k : Nat) (h : k < 16) : hexVal (hexDigit k) = some k := by
  have hall : ∀ m : Fin 16, hexVal (hexDigit m.val) = some m.val := by decide
  exact hall ⟨k, h⟩

/-- Consuming one escaped character undoes the escaping. -/
theorem parseStringBody_escape (c : Char) (acc rest : List Char) :
    parseStringBody acc (escapeChar c ++ rest) = parseStringBody (c :: acc) rest := by
  by_cases h1 : c = '\"'
  · subst h1
    show parseStringBody acc ('\\' :: '\"' :: rest) = _
    rw [parseStringBody.eq_def]
    simp [unescapeChar]
  by_cases h2 : c = '\\'
  · subst h2
    show parseStringBody acc ('\\' :: '\\' :: rest) = _
    rw [parseStringBody.eq_def]
    simp [unescapeChar]
  by_cases h3 : c = Char.ofNat 8
  · subst h3
    show parseStringBody acc ('\\' :: 'b' :: rest) = _
    rw [parseStringBody.eq_def]
    simp [unescapeChar]
  by_cases h4 : c = Char.ofNat 12
  · subst h4
    show parseStringBody acc ('\\' :: 'f' :: rest) = _
    rw [parseStringBody.eq_def]
    simp [unescapeChar]
  by_cases h5 : c = '\n'
  · subst h5
    show parseStringBody acc ('\\' :: 'n' :: rest) = _
    rw [parseStringBody.eq_def]
    simp [unescapeChar]
  by_cases h6 : c = '\r'
  · subst h6
    show parseStringBody acc ('\\' :: 'r' :: rest) = _
    rw [parseStringBody.eq_def]
    simp [unescapeChar]
  by_cases h7 : c = '\t'
  · subst h7
    show parseStringBody acc ('\\' :: 't' :: rest) = _
    rw [parseStringBody.eq_def]
    simp [unescapeChar]
  by_cases h8 : c.toNat < 32
  · have hesc : escapeChar c =
        ['\\', 'u', '0', '0', hexDigit (c.toNat / 16), hexDigit (c.toNat % 16)] := by
      simp only [escapeChar, if_neg h1, if_neg h2, if_neg h3, if_neg h4,
        if_neg h5, if_neg h6, if_neg h7, if_pos h8]
    have hh : hex4 '0' '0' (hexDigit (c.toNat / 16)) (hexDigit (c.toNat % 16))
        = some c.toNat := by
      have hhi : hexVal (hexDigit (c.toNat / 16)) = some (c.toNat / 16) :=
        hexVal_hexDigit _ (by omega)
      have hlo : hexVal (hexDigit (c.toNat % 16)) = some (c.toNat % 16) :=
        hexVal_hexDigit _ (by omega)
      have h0 : hexVal '0' = some 0 := by decide
      simp only [hex4, h0, hhi, hlo]
      show some _ = some _
      congr 1
      omega
    rw [hesc, parseStringBody.eq_def]
    simp only [List.cons_append, List.nil_append]
    simp [hh, Char.ofNat_toNat]
  · have hesc : escapeChar c = [c] := by
      simp only [escapeChar, if_neg h1, if_neg h2, if_neg h3, if_neg h4,
        if_neg h5, if_neg h6, if_neg h7, if_neg h8]
    rw [hesc, parseStringBody.eq_def]
    simp only [List.cons_append, List.nil_append]
    simp [h1, h2, h8]

/-- Consuming a whole escaped run stops exactly at the closing quote. -/
theorem parseStringBody_flat (s : List Char) : ∀ (acc rest : List Char),
    parseStringBody acc (s.flatMap escapeChar ++ '\"' :: rest)
      = some (acc.reverse ++ s, rest) := by
  induction s with
  | nil =>
    intro acc rest
    rw [List.flatMap_nil, List.nil_append, parseStringBody.eq_def]
    simp
  | cons c cs ih =>
    intro acc rest
    rw [List.flatMap_cons, List.append_assoc, parseStringBody_escape, ih]
    simp

/-- `skipWs` leaves a non-whitespace head alone. -/
theorem skipWs_cons_nonws {c : Char} (h : isWsJ c = false) (X : List Char) :
    skipWs (c :: X) = c :: X := by simp [skipWs, h]

/-- `skipWs` eats a whitespace head. -/
theorem skipWs_cons_ws {c : Char} (h : isWsJ c = true) (X : List Char) :
    skipWs (c :: X) = skipWs X := by simp [skipWs, h]

/-- `skipWs` eats any run of spaces. -/
theorem skipWs_replicate (n : Nat) (X : List Char) :
    skipWs (List.replicate n ' ' ++ X) = skipWs X := by
  induction n with
  | zero => simp
  | succ m ih =>
    rw [List.replicate_succ, List.cons_append, skipWs_cons_ws (by decide), ih]

/-- `skipWs` eats the pretty-printer's indentation. -/
theorem skipWs_indentJ (d : Nat) (X : List Char) :
    skipWs (indentJ d ++ X) = skipWs X := skipWs_replicate _ _

/-- A whitespace character is not a digit. -/
theorem digitJ_not_special {c : Char} (h : isDigitJ c = true) :
    isWsJ c = false ∧ c ≠ ']' ∧ c ≠ rbrace := by
  refine ⟨?_, ?_, ?_⟩
  · cases hw : isWsJ c with
    | false => rfl
    | true =>
      exfalso
      simp only [isWsJ, Bool.or_eq_true, decide_eq_true_eq] at hw
      rcases hw with (((h1 | h1) | h1) | h1) <;> (subst h1; exact absurd h (by decide))
  · intro he; subst he; exact absurd h (by decide)
  · intro he; subst he; exact absurd h (by decide)

/-- Every rendered value starts with a visible character that closes neither
    an array nor an object. -/
theorem ppVal_head (d : Nat) (v : Json) :
    ∃ c t, ppVal d v = c :: t ∧ isWsJ c = false ∧ c ≠ ']' ∧ c ≠ rbrace := by
  cases v with
  | null => exact ⟨'n', _, rfl, by decide⟩
  | bool b =>
    cases b with
    | true => exact ⟨'t', _, rfl, by decide⟩
    | false => exact ⟨'f', _, rfl, by decide⟩
  | num i =>
    by_cases hi : i < 0
    · have harg : ppVal d (.num i) = '-' :: natDigits i.natAbs [] := by
        simp [ppVal, intChars, hi]
      exact ⟨'-', _, harg, by decide⟩
    · obtain ⟨c, t, hct, hdig, _⟩ := natDigits_head i.natAbs
      have harg : ppVal d (.num i) = c :: t := by
        simp [ppVal, intChars, hi, hct]
      obtain ⟨hw, hbr, hbc⟩ := digitJ_not_special hdig
      exact ⟨c, t, harg, hw, hbr, hbc⟩
  | str s => exact ⟨'\"', _, rfl, by decide⟩
  | arr es =>
    cases es with
    | nil => exact ⟨'[', _, rfl, by decide⟩
    | cons x xs => exact ⟨'[', _, rfl, by decide⟩
  | obj ms =>
    cases ms with
    | nil => exact ⟨lbrace, _, rfl, by decide⟩
    | cons k w tl => exact ⟨lbrace, _, rfl, by decide⟩

/-- `skipWs` leaves a rendered value alone. -/
theorem skipWs_ppVal (d : Nat) (v : Json) (X : List Char) :
    skipWs (ppVal d v ++ X) = ppVal d v ++ X := by
  obtain ⟨c, t, hct, hw, _, _⟩ := ppVal_head d v
  rw [hct, List.cons_append, skipWs_cons_nonws hw]

/-- A rendered value is never empty. -/
theorem ppVal_length_pos (d : Nat) (v : Json) : 1 ≤ (ppVal d v).length := by
  obtain ⟨c, t, hct, _, _, _⟩ := ppVal_head d v
  rw [hct]
  simp

/-- `skipWs` leaves a rendered string literal alone. -/
theorem skipWs_strChars (k : List Char) (X : List Char) :
    skipWs (strChars k ++ X) = strChars k ++ X := by
  rw [strChars, List.cons_append, skipWs_cons_nonws (by decide)]

/-- The tail after a rendered element cannot extend a number. -/
theorem numDelim_afterItem (d : Nat) (xs : JsonList) (rest : List Char) :
    numDelim (afterItem d xs rest) = true := by
  cases xs <;> rfl

/-- The tail after a rendered member cannot extend a number. -/
theorem numDelim_afterMemb (d : Nat) (ms : JsonMembers) (rest : List Char) :
    numDelim (afterMemb d ms rest) = true := by
  cases ms <;> rfl

/-- Splitting the rendered element block into its first value and its tail. -/
theorem ppItems_decomp (d : Nat) (y : Json) (ys : JsonList) (rest : List Char) :
    ppItems d (.cons y ys) ++ '\n' :: (indentJ d ++ ']' :: rest)
      = indentJ (d + 1) ++ (ppVal (d + 1) y ++ afterItem d ys rest) := by
  cases ys with
  | nil => simp [ppItems, jsepL, afterItem]
  | cons z zs => simp [ppItems, jsepL, afterItem]

/-- Splitting the rendered member block into its first member and its tail. -/
theorem ppMembers_decomp (d : Nat) (k : List Char) (w : Json) (ms : JsonMembers)
    (rest : List Char) :
    ppMembers d (.cons k w ms) ++ '\n' :: (indentJ d ++ rbrace :: rest)
      = indentJ (d + 1) ++ (strChars k ++ ':' :: ' ' :: (ppVal (d + 1) w ++ afterMemb d ms rest)) := by
  cases ms with
  | nil => simp [ppMembers, jsepM, afterMemb]
  | cons k2 w2 ms2 => simp [ppMembers, jsepM, afterMemb]

/-- After the opening bracket and line break the parser sees the first
    element, the indentation absorbed. -/
theorem skipWs_items_block (d : Nat) (y : Json) (ys : JsonList) (rest : List Char) :
    skipWs ('\n' :: (ppItems d (.cons y ys) ++ '\n' :: (indentJ d ++ ']' :: rest)))
      = ppVal (d + 1) y ++ afterItem d ys rest := by
  rw [skipWs_cons_ws (by decide), ppItems_decomp, skipWs_indentJ, skipWs_ppVal]

/-- After the opening brace and line break the parser sees the first member's
    key, the indentation absorbed. -/
theorem skipWs_membs_block (d : Nat) (k : List Char) (w : Json) (ms : JsonMembers)
    (rest : List Char) :
    skipWs ('\n' :: (ppMembers d (.cons k w ms) ++ '\n' :: (indentJ d ++ rbrace :: rest)))
      = strChars k ++ ':' :: ' ' :: (ppVal (d + 1) w ++ afterMemb d ms rest) := by
  rw [skipWs_cons_ws (by decide), ppMembers_decomp, skipWs_indentJ, skipWs_strChars]

/-- A digit cannot open any other kind of JSON value. -/
theorem digitJ_not_letters {c : Char} (h : isDigitJ c = true) :
    c ≠ 'n' ∧ c ≠ 't' ∧ c ≠ 'f' ∧ c ≠ '\"' ∧ c ≠ '[' ∧ c ≠ lbrace := by
  refine ⟨?_, ?_, ?_, ?_, ?_, ?_⟩ <;> (intro he; subst he; exact absurd h (by decide))

/-- The parser routes a rendered integer through the number branch. -/
theorem parseVal_num_entry (f : Nat) (i : Int) (rest : List Char) (hr : numDelim rest = true) :
    parseVal (f + 1) (intChars i ++ rest) = some (.num i, rest) := by
  by_cases hi : i < 0
  · have hct : intChars i ++ rest = '-' :: (natDigits i.natAbs [] ++ rest) := by
      simp [intChars, hi]
    rw [hct]
    simp only [parseVal]
    rw [skipWs_cons_nonws (by decide)]
    have h1 : ('-' : Char) ≠ 'n' := by decide
    have h2 : ('-' : Char) ≠ 't' := by decide
    have h3 : ('-' : Char) ≠ 'f' := by decide
    have h4 : ('-' : Char) ≠ '\"' := by decide
    have h5 : ('-' : Char) ≠ '[' := by decide
    have h6 : ('-' : Char) ≠ lbrace := by decide
    simp only [if_neg h1, if_neg h2, if_neg h3, if_neg h4, if_neg h5, if_neg h6,
      if_pos (Or.inl (rfl : ('-' : Char) = '-'))]
    rw [← hct, parseNum_intChars i hr]
    simp
  · obtain ⟨c, t, hct0, hdig, _⟩ := natDigits_head i.natAbs
    have hct : intChars i ++ rest = c :: (t ++ rest) := by
      simp [intChars, hi, hct0]
    obtain ⟨hn, ht, hf2, hq, hbk, hbc⟩ := digitJ_not_letters hdig
    obtain ⟨hw, _, _⟩ := digitJ_not_special hdig
    rw [hct]
    simp only [parseVal]
    rw [skipWs_cons_nonws hw]
    simp only [if_neg hn, if_neg ht, if_neg hf2, if_neg hq, if_neg hbk, if_neg hbc,
      if_pos (Or.inr hdig)]
    rw [← hct, parseNum_intChars i hr]

/-- The parser routes a rendered string literal through the string branch. -/
theorem parseVal_str_entry (f : Nat) (s rest : List Char) :
    parseVal (f + 1) (strChars s ++ rest) = some (.str s, rest) := by
  have harg : strChars s ++ rest = '\"' :: (s.flatMap escapeChar ++ '\"' :: rest) := by
    simp [strChars]
  rw [harg]
  simp only [parseVal]
  rw [skipWs_cons_nonws (by decide)]
  have hsb := parseStringBody_flat s [] rest
  simp only [List.reverse_nil, List.nil_append] at hsb
  simp [hsb]

/-- A `JsonList` has positive size. -/
theorem sizeOfJsonList_pos (xs : JsonList) : 0 < sizeOf xs := by
  cases xs <;> simp_arith

/-- A `JsonMembers` has positive size. -/
theorem sizeOfJsonMembers_pos (ms : JsonMembers) : 0 < sizeOf ms := by
  cases ms <;> simp_arith

mutual
/-- Parsing a rendered value (at any depth) recovers it, for any remainder
    that cannot extend a number. -/
theorem rt_val : ∀ (v : Json) (d fuel : Nat) (rest : List Char),
    (ppVal d v).length < fuel → numDelim rest = true →
    parseVal fuel (ppVal d v ++ rest) = some (v, rest)
  | .null, d, fuel, rest, hf, _ => by
    cases fuel with
    | zero => exact absurd hf (Nat.not_lt_zero _)
    | succ f =>
      show parseVal (f + 1) ('n' :: 'u' :: 'l' :: 'l' :: rest) = some (.null, rest)
      simp [parseVal, skipWs, isWsJ]
  | .bool true, d, fuel, rest, hf, _ => by
    cases fuel with
    | zero => exact absurd hf (Nat.not_lt_zero _)
    | succ f =>
      show parseVal (f + 1) ('t' :: 'r' :: 'u' :: 'e' :: rest) = some (.bool true, rest)
      simp [parseVal, skipWs, isWsJ]
  | .bool false, d, fuel, rest, hf, _ => by
    cases fuel with
    | zero => exact absurd hf (Nat.not_lt_zero _)
    | succ f =>
      show parseVal (f + 1) ('f' :: 'a' :: 'l' :: 's' :: 'e' :: rest) = some (.bool false, rest)
      simp [parseVal, skipWs, isWsJ]
  | .num i, d, fuel, rest, hf, hr => by
    cases fuel with
    | zero => exact absurd hf (Nat.not_lt_zero _)
    | succ f => exact parseVal_num_entry f i rest hr
  | .str s, d, fuel, rest, hf, _ => by
    cases fuel with
    | zero => exact absurd hf (Nat.not_lt_zero _)
    | succ f => exact parseVal_str_entry f s rest
  | .arr .nil, d, fuel, rest, hf, _ => by
    cases fuel with
    | zero => exact absurd hf (Nat.not_lt_zero _)
    | succ f =>
      show parseVal (f + 1) ('[' :: ']' :: rest) = some (.arr .nil, rest)
      simp [parseVal, skipWs, isWsJ]
  | .arr (.cons x xs), d, fuel, rest, hf, hr => by
    cases fuel with
    | zero => exact absurd hf (Nat.not_lt_zero _)
    | succ f =>
      have harg : ppVal d (.arr (.cons x xs)) ++ rest
          = '[' :: '\n' :: (ppItems d (.cons x xs) ++ '\n' :: (indentJ d ++ ']' :: rest)) := by
        show ('[' :: '\n' :: (ppItems d (.cons x xs) ++ '\n' :: (indentJ d ++ [']']))) ++ rest = _
        simp
      rw [harg]
      simp only [parseVal]
      rw [skipWs_cons_nonws (by decide)]
      have h1 : ('[' : Char) ≠ 'n' := by decide
      have h2 : ('[' : Char) ≠ 't' := by decide
      have h3 : ('[' : Char) ≠ 'f' := by decide
      have h4 : ('[' : Char) ≠ '\"' := by decide
      simp only [if_neg h1, if_neg h2, if_neg h3, if_neg h4,
        if_pos (rfl : ('[' : Char) = '[')]
      rw [skipWs_items_block d x xs rest]
      obtain ⟨c, t, hct, hw, hbr, hbc⟩ := ppVal_head (d + 1) x
      rw [hct, List.cons_append]
      dsimp only
      rw [if_neg hbr, ← List.cons_append, ← hct]
      have hfu : (ppItems d (.cons x xs)).length + 1 < f := by
        have hlen : (ppVal d (.arr (.cons x xs))).length
            = (ppItems d (.cons x xs)).length + 2 * d + 4 := by
          show ('[' :: '\n' :: (ppItems d (.cons x xs) ++ '\n' :: (indentJ d ++ [']']))).length = _
          simp [indentJ] <;> omega
        omega
      rw [rt_items x xs d f rest hfu]
      simp
  | .obj .nil, d, fuel, rest, hf, _ => by
    cases fuel with
    | zero => exact absurd hf (Nat.not_lt_zero _)
    | succ f =>
      show parseVal (f + 1) (lbrace :: rbrace :: rest) = some (.obj .nil, rest)
      simp [parseVal, skipWs, isWsJ, lbrace, rbrace]
  | .obj (.cons k w ms), d, fuel, rest, hf, hr => by
    cases fuel with
    | zero => exact absurd hf (Nat.not_lt_zero _)
    | succ f =>
      have harg : ppVal d (.obj (.cons k w ms)) ++ rest
          = lbrace :: '\n' :: (ppMembers d (.cons k w ms) ++ '\n' :: (indentJ d ++ rbrace :: rest)) := by
        show (lbrace :: '\n' :: (ppMembers d (.cons k w ms) ++ '\n' :: (indentJ d ++ [rbrace]))) ++ rest = _
        simp
      rw [harg]
      simp only [parseVal]
      rw [skipWs_cons_nonws (by decide)]
      have h1 : lbrace ≠ 'n' := by decide
      have h2 : lbrace ≠ 't' := by decide
      have h3 : lbrace ≠ 'f' := by decide
      have h4 : lbrace ≠ '\"' := by decide
      have h5 : lbrace ≠ '[' := by decide
      simp only [if_neg h1, if_neg h2, if_neg h3, if_neg h4, if_neg h5,
        if_pos (rfl : lbrace = lbrace)]
      rw [skipWs_membs_block d k w ms rest]
      have hqb : ('\"' : Char) ≠ rbrace := by decide
      rw [show strChars k ++ ':' :: ' ' :: (ppVal (d + 1) w ++ afterMemb d ms rest)
            = '\"' :: (k.flatMap escapeChar ++ '\"' :: (':' :: ' ' :: (ppVal (d + 1) w ++ afterMemb d ms rest)))
          from by simp [strChars]]
      dsimp only
      rw [if_neg hqb]
      rw [show ('\"' :: (k.flatMap escapeChar ++ '\"' :: (':' :: ' ' :: (ppVal (d + 1) w ++ afterMemb d ms rest))))
            = strChars k ++ ':' :: ' ' :: (ppVal (d + 1) w ++ afterMemb d ms rest)
          from by simp [strChars]]
      have hfu : (ppMembers d (.cons k w ms)).length + 1 < f := by
        have hlen : (ppVal d (.obj (.cons k w ms))).length
            = (ppMembers d (.cons k w ms)).length + 2 * d + 4 := by
          show (lbrace :: '\n' :: (ppMembers d (.cons k w ms) ++ '\n' :: (indentJ d ++ [rbrace]))).length = _
          simp [indentJ] <;> omega
        omega
      rw [rt_membs k w ms d f rest hfu]
      simp
termination_by v _ _ _ _ _ => sizeOf v

/-- Parsing a rendered element block recovers the element list. -/
theorem rt_items : ∀ (x : Json) (xs : JsonList) (d fuel : Nat) (rest : List Char),
    (ppItems d (.cons x xs)).length + 1 < fuel →
    parseItems fuel (ppVal (d + 1) x ++ afterItem d xs rest) = some (.cons x xs, rest)
  | x, xs, d, fuel, rest, hfu => by
    cases fuel with
    | zero => exact absurd hfu (Nat.not_lt_zero _)
    | succ f =>
      simp only [parseItems]
      have hb : (ppVal (d + 1) x).length < f := by
        have hlen : (ppItems d (.cons x xs)).length
            = 2 * (d + 1) + ((ppVal (d + 1) x).length + (jsepL xs ++ ppItems d xs).length) := by
          simp [ppItems, indentJ] <;> omega
        omega
      rw [rt_val x (d + 1) f (afterItem d xs rest) hb (numDelim_afterItem d xs rest)]
      dsimp only
      cases xs with
      | nil =>
        have hskip : skipWs (afterItem d .nil rest) = ']' :: rest := by
          show skipWs ('\n' :: (indentJ d ++ ']' :: rest)) = _
          rw [skipWs_cons_ws (by decide), skipWs_indentJ, skipWs_cons_nonws (by decide)]
        rw [hskip]
        dsimp only
        rw [if_neg (by decide : (']' : Char) ≠ ','), if_pos (rfl : (']' : Char) = ']')]
      | cons y ys =>
        have hskip : skipWs (afterItem d (.cons y ys) rest)
            = ',' :: '\n' :: (ppItems d (.cons y ys) ++ '\n' :: (indentJ d ++ ']' :: rest)) := by
          show skipWs (',' :: _) = _
          rw [skipWs_cons_nonws (by decide)]
        rw [hskip]
        dsimp only
        rw [if_pos (rfl : (',' : Char) = ',')]
        rw [skipWs_items_block d y ys rest]
        have hfu2 : (ppItems d (.cons y ys)).length + 1 < f := by
          have hlen : (ppItems d (.cons x (.cons y ys))).length
              = 2 * (d + 1) + ((ppVal (d + 1) x).length + (2 + (ppItems d (.cons y ys)).length)) := by
            simp [ppItems, jsepL, indentJ] <;> omega
          omega
        rw [rt_items y ys d f rest hfu2]
termination_by x xs _ _ _ _ => sizeOf x + sizeOf xs
decreasing_by
  all_goals (try simp_wf)
  all_goals (try subst_vars)
  all_goals first
    | omega
    | (have hpos := sizeOfJsonList_pos xs; omega)
    | (simp_arith <;> omega)
    | simp_arith

/-- Parsing a rendered member block recovers the member list. -/
theorem rt_membs : ∀ (k : List Char) (w : Json) (ms : JsonMembers) (d fuel : Nat)
    (rest : List Char),
    (ppMembers d (.cons k w ms)).length + 1 < fuel →
    parseMembs fuel (strChars k ++ ':' :: ' ' :: (ppVal (d + 1) w ++ afterMemb d ms rest))
      = some (.cons k w ms, rest)
  | k, w, ms, d, fuel, rest, hfu => by
    cases fuel with
    | zero => exact absurd hfu (Nat.not_lt_zero _)
    | succ f =>
      simp only [parseMembs]
      rw [skipWs_strChars]
      rw [show strChars k ++ ':' :: ' ' :: (ppVal (d + 1) w ++ afterMemb d ms rest)
            = '\"' :: (k.flatMap escapeChar ++ '\"' :: (':' :: ' ' :: (ppVal (d + 1) w ++ afterMemb d ms rest)))
          from by simp [strChars]]
      dsimp only
      rw [if_pos (rfl : ('\"' : Char) = '\"')]
      have hsb := parseStringBody_flat k []
        (':' :: ' ' :: (ppVal (d + 1) w ++ afterMemb d ms rest))
      simp only [List.reverse_nil, List.nil_append] at hsb
      rw [hsb]
      dsimp only
      rw [skipWs_cons_nonws (by decide)]
      dsimp only
      rw [if_pos (rfl : (':' : Char) = ':')]
      rw [skipWs_cons_ws (by decide), skipWs_ppVal]
      have hb : (ppVal (d + 1) w).length < f := by
        have hlen : (ppMembers d (.cons k w ms)).length
            = 2 * (d + 1) + ((strChars k).length
              + (2 + ((ppVal (d + 1) w).length + (jsepM ms ++ ppMembers d ms).length))) := by
          simp [ppMembers, indentJ] <;> omega
        omega
      rw [rt_val w (d + 1) f (afterMemb d ms rest) hb (numDelim_afterMemb d ms rest)]
      dsimp only
      cases ms with
      | nil =>
        have hskip : skipWs (afterMemb d .nil rest) = rbrace :: rest := by
          show skipWs ('\n' :: (indentJ d ++ rbrace :: rest)) = _
          rw [skipWs_cons_ws (by decide), skipWs_indentJ, skipWs_cons_nonws (by decide)]
        rw [hskip]
        dsimp only
        rw [if_neg (by decide : rbrace ≠ ','), if_pos (rfl : rbrace = rbrace)]
      | cons k2 w2 ms2 =>
        have hskip : skipWs (afterMemb d (.cons k2 w2 ms2) rest)
            = ',' :: '\n' :: (ppMembers d (.cons k2 w2 ms2) ++ '\n' :: (indentJ d ++ rbrace :: rest)) := by
          show skipWs (',' :: _) = _
          rw [skipWs_cons_nonws (by decide)]
        rw [hskip]
        dsimp only
        rw [if_pos (rfl : (',' : Char) = ',')]
        rw [skipWs_membs_block d k2 w2 ms2 rest]
        have hfu2 : (ppMembers d (.cons k2 w2 ms2)).length + 1 < f := by
          have hlen : (ppMembers d (.cons k w (.cons k2 w2 ms2))).length
              = 2 * (d + 1) + ((strChars k).length
                + (2 + ((ppVal (d + 1) w).length + (2 + (ppMembers d (.cons k2 w2 ms2)).length)))) := by
            simp [ppMembers, jsepM, indentJ] <;> omega
          omega
        rw [rt_membs k2 w2 ms2 d f rest hfu2]
termination_by k w ms _ _ _ _ => sizeOf w + sizeOf ms
decreasing_by
  all_goals (try simp_wf)
  all_goals (try subst_vars)
  all_goals first
    | omega
    | (have hpos := sizeOfJsonMembers_pos ms; omega)
    | (simp_arith <;> omega)
    | simp_arith
end

/-- Round-trip of the whole document: parsing the two-space serialisation of
    any JSON value recovers exactly that value. -/
theorem stringify2_parseJson (v : Json) : parseJson (stringify2 v) = some v := by
  have hv := rt_val v 0 ((ppVal 0 v).length + 1) [] (by omega) rfl
  rw [List.append_nil] at hv
  show parseJson (ppVal 0 v) = some v
  unfold parseJson
  rw [show (ppVal 0 v).length + 1 = (ppVal 0 v).length + 1 from rfl, hv]
  rfl

/-- A run of `'a'` characters needs no escaping. -/
theorem flatMap_escape_replicate_a (n : Nat) :
    (List.replicate n 'a').flatMap escapeChar = List.replicate n 'a' := by
  induction n with
  | zero => rfl
  | succ m ih =>
    rw [List.replicate_succ, List.flatMap_cons, ih]
    rfl

/-- A string body that hits the truncation marker instead of a closing quote
    fails to parse: the marker starts with a raw control character. -/
theorem parseStringBody_replicate_marker (n : Nat) : ∀ acc : List Char,
    parseStringBody acc (List.replicate n 'a' ++ truncMarker) = none := by
  induction n with
  | zero =>
    intro acc
    show parseStringBody acc ('\n' :: _) = none
    rw [parseStringBody.eq_def]
    simp
  | succ m ih =>
    intro acc
    rw [List.replicate_succ, List.cons_append, parseStringBody.eq_def]
    simp [ih]

/-- Claim C6, counterexample: a valid JSON file whose pretty-printed form
    exceeds the 5000-character display cap is truncated by the renderer, and
    the displayed content no longer parses at all — so it cannot re-parse to
    the original value. -/
theorem json_roundtrip_truncation_cex :
    parseJson (stringify2 jbig) = some jbig ∧
    parseJson (renderTextL (stringify2 jbig)) = none := by
  have hs : stringify2 jbig = '\"' :: (List.replicate 5001 'a' ++ ['\"']) := by
    show strChars (List.replicate 5001 'a') = _
    rw [strChars, flatMap_escape_replicate_a]
  refine ⟨stringify2_parseJson jbig, ?_⟩
  rw [hs]
  have htake : ('\"' :: (List.replicate 5001 'a' ++ ['\"'])).take 5000
      = '\"' :: List.replicate 4999 'a' := by
    rw [show (5000 : Nat) = 4999 + 1 by norm_num, List.take_succ_cons,
      List.take_append_of_le_length (by rw [List.length_replicate]; omega),
      List.take_replicate, min_eq_left (by omega)]
  have hrend : renderTextL ('\"' :: (List.replicate 5001 'a' ++ ['\"']))
      = '\"' :: (List.replicate 4999 'a' ++ truncMarker) := by
    rw [renderTextL,
      if_pos (by
        simp only [List.length_cons, List.length_append, List.length_replicate]
        omega),
      htake, List.cons_append]
  rw [hrend]
  unfold parseJson
  generalize ('\"' :: (List.replicate 4999 'a' ++ truncMarker)).length = f
  simp only [parseVal]
  rw [skipWs_cons_nonws (by decide)]
  have h1 : ('\"' : Char) ≠ 'n' := by decide
  have h2 : ('\"' : Char) ≠ 't' := by decide
  have h3 : ('\"' : Char) ≠ 'f' := by decide
  dsimp only
  rw [if_neg h1, if_neg h2, if_neg h3, if_pos (rfl : ('\"' : Char) = '\"'),
    parseStringBody_replicate_marker 4999]

/-- Claim C6 (amended): for every valid JSON file whose two-space
    serialisation fits within the 5000-character display cap, the Reader
    yields the pretty-printed value, the Renderer displays it in full, and
    re-parsing the displayed content recovers a value deep-equal (here:
    equal) to the originally parsed one. -/
theorem json_reader_renderer_roundtrip (file : FileMeta) (c : List Char) (v : Json)
    (hjson : jsonMarked file = true) (himg : typeIncludesImage file.type = false)
    (hcsv : csvDetect file = false) (hp : parseJson c = some v)
    (hlen : (stringify2 v).length ≤ 5000) :
    readerOnload file c = .content (stringify2 v) ∧
    renderContent file false none (stringify2 v) = .textView (stringify2 v) ∧
    parseJson (stringify2 v) = some v := by
  refine ⟨?_, ?_, stringify2_parseJson v⟩
  · simp [readerOnload, hjson, hp]
  · simp only [renderContent, himg, hcsv, Bool.false_eq_true, if_false]
    rw [renderTextL, if_neg (by omega)]

/-- Witness for `json_reader_renderer_roundtrip`: the document `[1, 2]`. -/
theorem json_reader_renderer_roundtrip_witness :
    readerOnload c6File c6Content = .content (stringify2 c6Value) ∧
    renderContent c6File false none (stringify2 c6Value) = .textView (stringify2 c6Value) ∧
    parseJson (stringify2 c6Value) = some c6Value :=
  json_reader_renderer_roundtrip c6File c6Content c6Value (by decide) (by decide) (by decide)
    (by rfl) (by decide)
